import Mathlib

/-!
Shallow embedding of the `tape_book` order-book core
(`src/include/tape_book/*.hpp`, with the single-include variant of
`Tape::set_qty` from `src/single_include/tape_book.hpp`).

Conventions of the embedding:
* Prices are `Int`; the concrete instantiation used by the tests is `i32`,
  so the representable range is `[minPx, maxPx] = [-2^31, 2^31 - 1]`.
  All intermediate C++ arithmetic on prices is performed in `i64` and can
  never overflow for `i32` inputs, so plain `Int` arithmetic is exact;
  the one place where a value is truncated back to the price type
  (`price_from_idx`) is modelled by the explicit wrap `wrapI32`.
* Quantities are `Nat` (the C++ quantity type is unsigned; `0` means absence).
* The tape quantity cells are a `List Nat` of length `N`; the occupancy
  bitmap is a `List Bool` of length `N` (bit `i` of the C++ word array
  `bits[i >> 6]` is cell `i` here; the 64-bit word packing is memory
  layout and is modelled bit-by-bit, with word granularity kept where the
  code works word-wise, namely the bitmap rebuild of `erase_range`).
* Sinks: `Tape::set_qty` and `Tape::recenter_to_anchor` interact with the
  sink only through `sink.push(px, q)`; the embedding returns the exact
  ordered list of pushed `(price, qty)` pairs and the caller applies them
  to its spill buffer (`NullSink` discards them).
* Heap allocation in the spill buffer (`ensure_cap` with no pool uses
  `malloc`) is modelled as always succeeding; every claim about the spill
  buffer either does not involve growth or assumes that no allocation
  fails. The arena pool (`SpillPool`) is modelled separately and exactly,
  including its failure path; its intrusive free lists (offsets threaded
  through arena memory) are modelled as the per-class stacks of offsets
  they implement.
-/

namespace TapeBook

/-- Representable price minimum for the `i32` instantiation
(`std::numeric_limits<PriceT>::lowest()`). -/
def minPx : Int := -(2 ^ 31)

/-- Representable price maximum (`std::numeric_limits<PriceT>::max()`). -/
def maxPx : Int := 2 ^ 31 - 1

/-- Truncation of an `i64` value back to `i32`
(two-is-complement wrap-around), as performed by
`static_cast<PriceT>(...)` in `price_from_idx`. -/
def wrapI32 (x : Int) : Int := (x + 2 ^ 31) % 2 ^ 32 - 2 ^ 31

theorem wrapI32_eq_self {x : Int} (h1 : minPx ≤ x) (h2 : x ≤ maxPx) :
    wrapI32 x = x := by
  have h1x : -(2147483648 : Int) ≤ x := h1
  have h2x : x ≤ (2147483647 : Int) := h2
  have hw : wrapI32 x = (x + 2147483648) % 4294967296 - 2147483648 := by
    norm_num [wrapI32]
  rw [hw]; omega

theorem wrapI32_mem_range (x : Int) : minPx ≤ wrapI32 x ∧ wrapI32 x ≤ maxPx := by
  have hw : wrapI32 x = (x + 2147483648) % 4294967296 - 2147483648 := by
    norm_num [wrapI32]
  constructor
  · show -(2147483648 : Int) ≤ wrapI32 x
    rw [hw]; omega
  · show wrapI32 x ≤ (2147483647 : Int)
    rw [hw]; omega

/-- `UpdateResult` (`types.hpp`); the numeric encodings are incidental. -/
inductive UpdateResult where
  | Insert
  | Update
  | Erase
  | Spill
  | Promote
deriving DecidableEq

/-- State of one `Tape<N, IsBid, PriceT, QtyT>` (`tape.hpp`). The
template parameter `IsBid` is carried as the field `isBid`; the array
length `N` is passed to each operation, with `qty.length = N` and
`bits.length = N` as well-formedness facts. -/
structure Tape where
  qty : List Nat
  bits : List Bool
  anchor : Int
  bestIdx : Int
  isBid : Bool
deriving DecidableEq

/-- Cell read `qty[i]` (out-of-range reads, which the C++ never
performs on well-formed states, default to 0). -/
def Tape.qtyAt (t : Tape) (i : Nat) : Nat := (t.qty[i]?).getD 0

/-- Bit read: bit `i & 63` of word `bits[i >> 6]`. -/
def Tape.bitAt (t : Tape) (i : Nat) : Bool := (t.bits[i]?).getD false

/-- `idx_from_price`: `d = (i64)px - (i64)anchor`, returned when in
`[0, N)`, else `-1`. -/
def Tape.idxFromPrice (N : Nat) (t : Tape) (px : Int) : Int :=
  let d := px - t.anchor
  if 0 ≤ d ∧ d < (N : Int) then d else -1

/-- `price_from_idx`: `static_cast<PriceT>((i64)anchor + (i64)i)`. -/
def Tape.priceFromIdx (t : Tape) (i : Int) : Int := wrapI32 (t.anchor + i)

/-- `best_px`: sentinel when empty, else the price at `best_idx`. -/
def Tape.bestPx (N : Nat) (t : Tape) : Int :=
  if t.isBid then
    if t.bestIdx < 0 then minPx else t.priceFromIdx t.bestIdx
  else
    if (N : Int) ≤ t.bestIdx then maxPx else t.priceFromIdx t.bestIdx

/-- `best_qty`. -/
def Tape.bestQty (N : Nat) (t : Tape) : Nat :=
  if t.isBid then
    if t.bestIdx < 0 then 0 else t.qtyAt t.bestIdx.toNat
  else
    if (N : Int) ≤ t.bestIdx then 0 else t.qtyAt t.bestIdx.toNat

/-- `is_empty`. -/
def Tape.isEmptyT (N : Nat) (t : Tape) : Bool :=
  if t.isBid then t.bestIdx < 0 else (N : Int) ≤ t.bestIdx

/-- `scan_prev_set(idx)`: highest set bit at position `≤ idx` (the C++
walks the bitmap words downward using count-leading-zeros on the masked
word; its value is exactly this extreme set bit), `-1` when none. -/
def Tape.scanPrevSet (N : Nat) (t : Tape) (idx : Int) : Int :=
  match ((List.range N).filter fun (j : Nat) => decide ((j : Int) ≤ idx) && t.bitAt j).getLast? with
  | some j => (j : Int)
  | none => -1

/-- `scan_next_set(idx)`: lowest set bit at position `≥ idx` (word walk
upward with count-trailing-zeros), `N` when none. -/
def Tape.scanNextSet (N : Nat) (t : Tape) (idx : Int) : Int :=
  match ((List.range N).filter fun (j : Nat) => decide (idx ≤ (j : Int)) && t.bitAt j).head? with
  | some j => (j : Int)
  | none => (N : Int)

/-- `Tape::set_qty` of the modular header `tape.hpp` (lines 118-161).
Returns the result, the post-state, and the ordered list of
`sink.push(px, q)` calls. -/
def Tape.setQty (N : Nat) (t : Tape) (px : Int) (q : Nat) :
    UpdateResult × Tape × List (Int × Nat) :=
  let i := t.idxFromPrice N px
  if i < 0 ∨ (N : Int) ≤ i then
    if q = 0 then (.Spill, t, [(px, 0)])
    else if t.isEmptyT N then (.Promote, t, [])
    else
      let curBest := t.bestPx N
      let strictlyBetter := if t.isBid then curBest < px else px < curBest
      if strictlyBetter then (.Promote, t, [])
      else (.Spill, t, [(px, q)])
  else
    let idx := i.toNat
    let cell := t.qtyAt idx
    if q = 0 ∧ cell = 0 then (.Update, t, [])
    else if q = 0 then
      let t1 := { t with qty := t.qty.set idx 0, bits := t.bits.set idx false }
      let t2 :=
        if (idx : Int) = t.bestIdx then
          { t1 with bestIdx := if t.isBid then t1.scanPrevSet N ((idx : Int) - 1)
                               else t1.scanNextSet N ((idx : Int) + 1) }
        else t1
      (.Erase, t2, [])
    else
      let rc : UpdateResult := if cell = 0 then .Insert else .Update
      let t1 := { t with qty := t.qty.set idx q, bits := t.bits.set idx true }
      let t2 :=
        if t.isBid then
          if t.bestIdx < (idx : Int) then { t1 with bestIdx := (idx : Int) } else t1
        else
          if (idx : Int) < t.bestIdx then { t1 with bestIdx := (idx : Int) } else t1
      (rc, t2, [])

/-- `Tape::set_qty` of the single-include header
`single_include/tape_book.hpp` (lines 542-586). It differs from the
modular header in exactly one line: when the price is in the window, the
cell is zero and the incoming quantity is zero, it returns `Erase`
where the modular header returns `Update`. -/
def Tape.setQtySI (N : Nat) (t : Tape) (px : Int) (q : Nat) :
    UpdateResult × Tape × List (Int × Nat) :=
  let i := t.idxFromPrice N px
  if i < 0 ∨ (N : Int) ≤ i then
    if q = 0 then (.Spill, t, [(px, 0)])
    else if t.isEmptyT N then (.Promote, t, [])
    else
      let curBest := t.bestPx N
      let strictlyBetter := if t.isBid then curBest < px else px < curBest
      if strictlyBetter then (.Promote, t, [])
      else (.Spill, t, [(px, q)])
  else
    let idx := i.toNat
    let cell := t.qtyAt idx
    if q = 0 ∧ cell = 0 then (.Erase, t, [])
    else if q = 0 then
      let t1 := { t with qty := t.qty.set idx 0, bits := t.bits.set idx false }
      let t2 :=
        if (idx : Int) = t.bestIdx then
          { t1 with bestIdx := if t.isBid then t1.scanPrevSet N ((idx : Int) - 1)
                               else t1.scanNextSet N ((idx : Int) + 1) }
        else t1
      (.Erase, t2, [])
    else
      let rc : UpdateResult := if cell = 0 then .Insert else .Update
      let t1 := { t with qty := t.qty.set idx q, bits := t.bits.set idx true }
      let t2 :=
        if t.isBid then
          if t.bestIdx < (idx : Int) then { t1 with bestIdx := (idx : Int) } else t1
        else
          if (idx : Int) < t.bestIdx then { t1 with bestIdx := (idx : Int) } else t1
      (rc, t2, [])

/-- Indices in `[L, R]` whose bitmap bit is set, in ascending order:
the visit order of `for_each_set(L, R, fn)` (word-by-word upward,
count-trailing-zeros within each word). `L`/`R` are the (possibly
negative) `i32` bounds of the C++ call. -/
def Tape.forEachSetIdx (N : Nat) (t : Tape) (L R : Int) : List Nat :=
  (List.range N).filter fun (j : Nat) =>
    decide (L ≤ (j : Int)) && decide ((j : Int) ≤ R) && t.bitAt j

/-- Effect of running `spill_one` over the indices `idxs` (ascending,
distinct): the sink pushes for the non-empty cells in order, and the
cell array with those cells zeroed. Each `spill_one` reads the cell
before zeroing it; distinct indices make the fold order-independent for
reads, matching the loop. -/
def Tape.spillCells (t : Tape) (idxs : List Nat) : List (Int × Nat) × List Nat :=
  (idxs.filterMap fun i =>
     let q := t.qtyAt i
     if q = 0 then none else some (t.priceFromIdx (i : Int), q),
   idxs.foldl (fun acc i => acc.set i 0) t.qty)

/-- `rotate_qty_right(k)`: the last `k` cells move to the front (the two
memcpy/memmove branches for `k ≤ N/2` and `k > N/2` implement the same
rotation). -/
def rotRight (l : List Nat) (k : Nat) : List Nat :=
  l.drop (l.length - k) ++ l.take (l.length - k)

/-- `rotate_qty_left(k)`: masks `k` by `N - 1` (`N` is a power of two,
so this is `k % N`), then rotates right by `N - k`. -/
def rotLeft (N : Nat) (l : List Nat) (k : Nat) : List Nat :=
  let k := k % N
  if k = 0 then l else rotRight l (N - k)

/-- `Tape::recenter_to_anchor` (`tape.hpp` lines 163-212): spill the
cells that fall out of the window (all of them if `|d| ≥ N`), rotate the
remainder, set the new anchor, rebuild the whole bitmap from the cells,
and rescan the best index. Returns the new state and the sink pushes. -/
def Tape.recenter (N : Nat) (t : Tape) (newAnchor : Int) :
    Tape × List (Int × Nat) :=
  let d : Int := newAnchor - t.anchor
  if d = 0 then (t, [])
  else
    let pr :=
      if (N : Int) ≤ d ∨ d ≤ -(N : Int) then
        t.spillCells (t.forEachSetIdx N 0 ((N : Int) - 1))
      else if 0 < d then
        let c := t.spillCells (t.forEachSetIdx N 0 (d - 1))
        (c.1, rotLeft N c.2 d.toNat)
      else
        let D := (-d).toNat
        let c := t.spillCells (t.forEachSetIdx N ((N : Int) - (D : Int)) ((N : Int) - 1))
        (c.1, rotRight c.2 D)
    let qty1 := pr.2
    let bits1 := qty1.map fun q => decide (q ≠ 0)
    let t1 := { t with qty := qty1, bits := bits1, anchor := newAnchor }
    let best := if t.isBid then t1.scanPrevSet N ((N : Int) - 1) else t1.scanNextSet N 0
    ({ t1 with bestIdx := best }, pr.1)

/-- `erase_range(start_idx, end_idx)` (`tape.hpp` lines 283-302): zero
the set cells in the range, rebuild the bitmap words covering the range
from the cells (word granularity: indices `[64*(s/64), 64*(e/64)+63]`),
and rescan the best index if it fell inside. -/
def Tape.eraseRange (N : Nat) (t : Tape) (s e : Nat) : Tape :=
  if e < s then t
  else
    let qty1 := (t.spillCells (t.forEachSetIdx N (s : Int) (e : Int))).2
    let wLo := 64 * (s / 64)
    let wHi := 64 * (e / 64) + 63
    let bits1 := (List.range N).map fun i =>
      if wLo ≤ i ∧ i ≤ wHi then decide ((qty1[i]?).getD 0 ≠ 0) else t.bitAt i
    let t1 := { t with qty := qty1, bits := bits1 }
    if t.isBid then
      if (s : Int) ≤ t.bestIdx then { t1 with bestIdx := t1.scanPrevSet N ((s : Int) - 1) }
      else t1
    else
      if t.bestIdx ≤ (e : Int) then { t1 with bestIdx := t1.scanNextSet N ((e : Int) + 1) }
      else t1

/-- `Tape::erase_better(px, sink)` (`tape.hpp` lines 214-244), tape part
only; every branch then calls `sink.erase_better(px)` exactly once,
which the book-level wrapper applies to the spill side. -/
def Tape.eraseBetterT (N : Nat) (t : Tape) (px : Int) : Tape :=
  let offset : Int := px - t.anchor
  if t.isBid then
    if offset < 0 then t.eraseRange N 0 (N - 1)
    else if (N : Int) ≤ offset then t
    else t.eraseRange N offset.toNat (N - 1)
  else
    if offset < 0 then t
    else if (N : Int) ≤ offset then t.eraseRange N 0 (N - 1)
    else t.eraseRange N 0 offset.toNat

/-- `Tape::reset(anchor)`. -/
def Tape.resetT (N : Nat) (t : Tape) (anchor : Int) : Tape :=
  { qty := List.replicate N 0, bits := List.replicate N false,
    anchor := anchor, bestIdx := if t.isBid then -1 else (N : Int), isBid := t.isBid }

/-!
Spill buffer (`spill_buffer.hpp`). One sorted side (`SideDynamic`): a
sorted-ascending list of `(price, qty)` entries, the current capacity
`cap` and the fixed `maxCap`. Allocation (heap or pool) is modelled as
always succeeding, as explained in the header comment.
-/

/-- One `SideDynamic<PriceT, QtyT>` side. `entries` is `a[0..n)`. -/
structure SideD where
  entries : List (Int × Nat)
  cap : Nat
  maxCap : Nat
deriving DecidableEq

/-- Binary lower-bound search `lb(px)` over `a[lo..hi)` (strictly the
loop of `SideDynamic::lb`, with `a[mid]` read through `getD`). -/
def lbAux (l : List (Int × Nat)) (px : Int) (lo hi : Nat) : Nat :=
  if h : lo < hi then
    let mid := (lo + hi) / 2
    if ((l[mid]?).getD (0, 0)).1 < px then lbAux l px (mid + 1) hi
    else lbAux l px lo mid
  else lo
termination_by hi - lo
decreasing_by
  · omega
  · omega

/-- `lb(px)`: first index whose price is `≥ px` (on a sorted side). -/
def SideD.lb (s : SideD) (px : Int) : Nat := lbAux s.entries px 0 s.entries.length

/-- `ensure_cap`: double the capacity (from 16), clamped to `max_cap`;
the fresh block always arrives (allocation modelled as succeeding). -/
def SideD.ensureCap (s : SideD) : SideD :=
  let newCap := if s.cap = 0 then 16 else s.cap * 2
  let newCap := min newCap s.maxCap
  if newCap ≤ s.cap then s else { s with cap := newCap }

/-- Body of `SideDynamic::add_point` after the `ensure_cap` growth
statement. The `Bool` is true exactly when the full-buffer (`n == cap`)
insert branch was entered, i.e. when the update was dropped or a worst
level evicted. -/
def SideD.addPointCore (isBid : Bool) (s : SideD) (px : Int) (q : Nat) : SideD × Bool :=
  let n := s.entries.length
  let i := s.lb px
  if i < n ∧ ((s.entries[i]?).getD (0, 0)).1 = px then
    if q = 0 then
      ({ s with entries := s.entries.take i ++ s.entries.drop (i + 1) }, false)
    else
      ({ s with entries := s.entries.set i (px, q) }, false)
  else if q = 0 then (s, false)
  else if n = s.cap then
    if isBid then
      if px ≤ ((s.entries[0]?).getD (0, 0)).1 then (s, true)
      else
        let s1 := { s with entries := s.entries.drop 1 }
        let j := s1.lb px
        ({ s1 with entries := s1.entries.take j ++ (px, q) :: s1.entries.drop j }, true)
    else
      if ((s.entries[n - 1]?).getD (0, 0)).1 ≤ px then (s, true)
      else
        let s1 := { s with entries := s.entries.take (n - 1) }
        let j := s1.lb px
        ({ s1 with entries := s1.entries.take j ++ (px, q) :: s1.entries.drop j }, true)
  else
    let j := s.lb px
    ({ s with entries := s.entries.take j ++ (px, q) :: s.entries.drop j }, false)

/-- `SideDynamic::add_point` (`spill_buffer.hpp` lines 69-104): grow the
capacity when full below `max_cap`, then run the body. -/
def SideD.addPoint (isBid : Bool) (s : SideD) (px : Int) (q : Nat) : SideD × Bool :=
  SideD.addPointCore isBid
    (if s.entries.length = s.cap ∧ s.cap < s.maxCap then s.ensureCap else s) px q

/-- `SideDynamic::drain_range(lo, hi, sink)` (`spill_buffer.hpp` lines
106-121): the visited `(price, qty)` calls (entries from `lb(lo)` while
`price ≤ hi`, skipping zero quantities) and the side with the whole
scanned range removed. -/
def SideD.drainRange (s : SideD) (lo hi : Int) : List (Int × Nat) × SideD :=
  if s.entries.length = 0 then ([], s)
  else
    let L := s.lb lo
    let rest := s.entries.drop L
    let seg := rest.takeWhile fun e => decide (e.1 ≤ hi)
    (seg.filter fun e => decide (e.2 ≠ 0),
     { s with entries := s.entries.take L ++ rest.drop seg.length })

/-- `SideDynamic::erase_better(th)` (lines 123-143): in-place compact
keeping bid entries with `¬(px ≥ th)` resp. ask entries with
`¬(px ≤ th)`. -/
def SideD.eraseBetterS (isBid : Bool) (s : SideD) (th : Int) : SideD :=
  if isBid then { s with entries := s.entries.filter fun e => decide (¬ th ≤ e.1) }
  else { s with entries := s.entries.filter fun e => decide (¬ e.1 ≤ th) }

/-- `best_px` of a side: sentinel when empty, else last (bid) or first
(ask) price. -/
def SideD.bestPxS (isBid : Bool) (s : SideD) : Int :=
  if s.entries.length = 0 then (if isBid then minPx else maxPx)
  else if isBid then ((s.entries.getLast?).getD (0, 0)).1
  else ((s.entries.head?).getD (0, 0)).1

/-- `best_qty` of a side. -/
def SideD.bestQtyS (isBid : Bool) (s : SideD) : Nat :=
  if s.entries.length = 0 then 0
  else if isBid then ((s.entries.getLast?).getD (0, 0)).2
  else ((s.entries.head?).getD (0, 0)).2

/-- `clear()`: `n = 0`, capacity kept. -/
def SideD.clearS (s : SideD) : SideD := { s with entries := [] }

/-- Two-sided spill buffer `DynSpillBuffer`. -/
structure Spill2 where
  bid : SideD
  ask : SideD
deriving DecidableEq

/-- `push<IsBid>` routes to the matching side. The `Bool` flags a
full-buffer drop/evict, as in `SideD.addPoint`. -/
def Spill2.pushS (isBid : Bool) (sp : Spill2) (px : Int) (q : Nat) : Spill2 × Bool :=
  if isBid then
    let r := sp.bid.addPoint true px q
    ({ sp with bid := r.1 }, r.2)
  else
    let r := sp.ask.addPoint false px q
    ({ sp with ask := r.1 }, r.2)

/-!
Book (`book.hpp`): `TapeBook` owns a bid tape, an ask tape and the
two-sided spill buffer. The per-side hot path `set_impl` is modelled on
the pair (tape of this side, spill side of this side), exactly as the
C++ which only ever touches `spill.{bid|ask}` through `push<IsBid>`,
`drain<IsBid>` and `erase_better<IsBid>`.
-/

/-- `TapeBook::compute_anchor(px, offset)` (`book.hpp` lines 27-36). -/
def computeAnchor (N : Nat) (px : Int) (offset : Int) : Int :=
  let minAnchor := minPx + ((N : Int) - 1)
  let maxAnchor := maxPx - ((N : Int) - 1)
  if px < minPx + offset then minAnchor
  else
    let result := px - offset
    if maxAnchor < result then maxAnchor else result

/-- Valid anchor range of `Tape<N>`: `[min_valid_anchor, max_valid_anchor]`. -/
def anchorValid (N : Nat) (a : Int) : Prop :=
  minPx + ((N : Int) - 1) ≤ a ∧ a ≤ maxPx - ((N : Int) - 1)

instance (N : Nat) (a : Int) : Decidable (anchorValid N a) := by
  unfold anchorValid; infer_instance

/-- Apply a list of `sink.push` calls to one spill side in order,
OR-ing the drop/evict flags. -/
def applyPushes (isBid : Bool) (s : SideD) (ps : List (Int × Nat)) : SideD × Bool :=
  ps.foldl (fun acc e =>
    let r := SideD.addPoint isBid acc.1 e.1 e.2
    (r.1, acc.2 || r.2)) (s, false)

/-- `TapeBook::set_impl` (`book.hpp` lines 93-117) on one side: first
`set_qty` with the spill as sink; on `Promote`, clamp a new anchor,
re-center (pushing displaced levels to the spill), drain the spill for
the new window back into the tape with a null sink, and retry with a
null sink. Returns result, tape, spill side, and the OR of all
drop/evict flags raised by spill pushes during the call. -/
def setImpl (N : Nat) (isBid : Bool) (t : Tape) (sp : SideD) (px : Int) (q : Nat) :
    UpdateResult × Tape × SideD × Bool :=
  let r1 := Tape.setQty N t px q
  let a1 := applyPushes isBid sp r1.2.2
  if r1.1 ≠ UpdateResult.Promote then (r1.1, r1.2.1, a1.1, a1.2)
  else
    let A0 := computeAnchor N px ((N : Int) / 2)
    let minA := computeAnchor N px ((N : Int) - 1)
    let A1 := if A0 < minA then minA else A0
    let A := if px < A1 then px else A1
    let r2 := Tape.recenter N r1.2.1 A
    let a2 := applyPushes isBid a1.1 r2.2
    let lo := r2.1.anchor
    let hi := lo + (N : Int) - 1
    let dr := SideD.drainRange a2.1 lo hi
    let t3 := dr.1.foldl (fun tt e => (Tape.setQty N tt e.1 e.2).2.1) r2.1
    let r4 := Tape.setQty N t3 px q
    (r4.1, r4.2.1, dr.2, a1.2 || a2.2)

/-- `TapeBook` state. -/
structure BookS where
  bids : Tape
  asks : Tape
  spill : Spill2
deriving DecidableEq

/-- `TapeBook::set(is_bid, px, q)` dispatching to `set_impl`; the
`Bool` flags any spill drop/evict during the call. -/
def bookSet (N : Nat) (isBid : Bool) (b : BookS) (px : Int) (q : Nat) :
    UpdateResult × BookS × Bool :=
  if isBid then
    let r := setImpl N true b.bids b.spill.bid px q
    (r.1, { b with bids := r.2.1, spill := { b.spill with bid := r.2.2.1 } }, r.2.2.2)
  else
    let r := setImpl N false b.asks b.spill.ask px q
    (r.1, { b with asks := r.2.1, spill := { b.spill with ask := r.2.2.1 } }, r.2.2.2)

/-- `TapeBook::erase_better<IsBid>(px)`: tape part, then the single
`sink.erase_better(px)` the tape issues lands on the spill side. -/
def bookEraseBetter (N : Nat) (isBid : Bool) (b : BookS) (px : Int) : BookS :=
  if isBid then
    { b with bids := b.bids.eraseBetterT N px,
             spill := { b.spill with bid := b.spill.bid.eraseBetterS true px } }
  else
    { b with asks := b.asks.eraseBetterT N px,
             spill := { b.spill with ask := b.spill.ask.eraseBetterS false px } }

/-- `TapeBook::reset(anchor)`: both tapes reset, spill cleared. -/
def bookReset (N : Nat) (b : BookS) (anchor : Int) : BookS :=
  { bids := b.bids.resetT N anchor, asks := b.asks.resetT N anchor,
    spill := { bid := b.spill.bid.clearS, ask := b.spill.ask.clearS } }

/-- `best_bid_px`: `(tape_best > spill_best) ? tape_best : spill_best`. -/
def bestBidPx (N : Nat) (b : BookS) : Int :=
  let tapeBest := b.bids.bestPx N
  let spillBest := b.spill.bid.bestPxS true
  if spillBest < tapeBest then tapeBest else spillBest

/-- `best_ask_px`: `(tape_best < spill_best) ? tape_best : spill_best`. -/
def bestAskPx (N : Nat) (b : BookS) : Int :=
  let tapeBest := b.asks.bestPx N
  let spillBest := b.spill.ask.bestPxS false
  if tapeBest < spillBest then tapeBest else spillBest

/-- `TapeBook::crossed_on_tape` (`book.hpp` lines 151-157). -/
def crossedOnTape (N : Nat) (b : BookS) : Prop :=
  b.bids.bestPx N ≠ minPx ∧ b.asks.bestPx N ≠ maxPx ∧ b.asks.bestPx N ≤ b.bids.bestPx N

/-- `Book::crossed` (`book.hpp` lines 205-211), over the global bests. -/
def crossedB (N : Nat) (b : BookS) : Prop :=
  bestBidPx N b ≠ minPx ∧ bestAskPx N b ≠ maxPx ∧ bestAskPx N b ≤ bestBidPx N b

instance (N : Nat) (b : BookS) : Decidable (crossedOnTape N b) := by
  unfold crossedOnTape; infer_instance

instance (N : Nat) (b : BookS) : Decidable (crossedB N b) := by
  unfold crossedB; infer_instance

/-!
Spill pool (`spill_pool.hpp`): size-class arena allocator. The arena
content is only ever read through the intrusive free-list links, so the
free lists are modelled as the per-class stacks of block offsets that
the links encode (`free_heads[c]` and the `next_offset` chain).
-/

/-- Number of size classes (`NUM_CLASSES`). -/
def NUM_CLASSES : Nat := 12

/-- Smallest block, in levels (`MIN_BLOCK`). -/
def MIN_BLOCK : Nat := 16

/-- Bit width of a 32-bit value: the value `32 - __builtin_clz(x)`
computed by `size_class` (for `1 ≤ x < 2^32`, the unique `k` with
`2^(k-1) ≤ x < 2^k`; 0 for `x = 0`). -/
def bitLen (x : Nat) : Nat :=
  (List.range 32).foldl (fun acc k => if 2 ^ k ≤ x then k + 1 else acc) 0

/-- `SpillPool::size_class(cap)` (`spill_pool.hpp` lines 46-54); the
`cls < 0` clamp of the C is subsumed by truncated `Nat` subtraction. -/
def sizeClass (cap : Nat) : Nat :=
  if cap ≤ MIN_BLOCK then 0
  else
    let bits := bitLen (cap - 1)
    min (NUM_CLASSES - 1) (bits - 4)

/-- `class_size(cls)` = `MIN_BLOCK << cls`. -/
def classSize (cls : Nat) : Nat := MIN_BLOCK * 2 ^ cls

/-- `SpillPool` state: total capacity in levels, bump watermark, twelve
per-class free-list stacks of offsets, and the failure counter. -/
structure SpillPoolS where
  arenaCap : Nat
  watermark : Nat
  freeHeads : List (List Nat)
  allocFailCount : Nat
deriving DecidableEq

/-- `SpillPool::allocate(cap)` (`spill_pool.hpp` lines 63-85): pop the
free list of the class when non-empty; else bump the watermark when the
block fits; else fail, counting the failure. Returns the block offset. -/
def SpillPoolS.allocate (p : SpillPoolS) (cap : Nat) : Option Nat × SpillPoolS :=
  let cls := sizeClass cap
  match (p.freeHeads[cls]?).getD [] with
  | off :: rest => (some off, { p with freeHeads := p.freeHeads.set cls rest })
  | [] =>
    let actual := classSize cls
    if p.watermark + actual ≤ p.arenaCap then
      (some p.watermark, { p with watermark := p.watermark + actual })
    else
      (none, { p with allocFailCount := p.allocFailCount + 1 })

/-- `SpillPool::deallocate(ptr, cap)`: push the offset onto the free
list of the class. -/
def SpillPoolS.deallocate (p : SpillPoolS) (off : Nat) (cap : Nat) : SpillPoolS :=
  let cls := sizeClass cap
  { p with freeHeads := p.freeHeads.set cls (off :: (p.freeHeads[cls]?).getD []) }

/-- Freshly reset tape: `Tape` state after `reset(anchor)`. -/
def mkTape (N : Nat) (isBid : Bool) (anchor : Int) : Tape :=
  { qty := List.replicate N 0, bits := List.replicate N false,
    anchor := anchor, bestIdx := if isBid then -1 else (N : Int), isBid := isBid }

/-- Fresh book: `Book<N>(max_cap)` followed by `reset(anchor)`. -/
def mkBook (N : Nat) (mc : Nat) (anchor : Int) : BookS :=
  { bids := mkTape N true anchor, asks := mkTape N false anchor,
    spill := { bid := { entries := [], cap := 0, maxCap := mc },
               ask := { entries := [], cap := 0, maxCap := mc } } }

/-- Quantity stored for price `p` in a spill-side entry list (0 when
absent); first match, as a linear reading of the sorted array. -/
def spLookup : List (Int × Nat) → Int → Nat
  | [], _ => 0
  | e :: l, p => if e.1 = p then e.2 else spLookup l p

/-- Price `p` occurs among the entries. -/
def hasPx (l : List (Int × Nat)) (p : Int) : Prop := ∃ q, (p, q) ∈ l

/-- The closed window `[anchor, anchor + N - 1]` of a tape. -/
def inWindow (N : Nat) (t : Tape) (p : Int) : Prop :=
  t.anchor ≤ p ∧ p < t.anchor + (N : Int)

instance (N : Nat) (t : Tape) (p : Int) : Decidable (inWindow N t p) := by
  unfold inWindow; infer_instance

/-- The per-side `price → qty` map of tape plus spill: the tape is
authoritative for in-window prices, the spill holds the rest. -/
def sideLookup (N : Nat) (t : Tape) (s : SideD) (p : Int) : Nat :=
  if inWindow N t p then t.qtyAt (p - t.anchor).toNat else spLookup s.entries p

/-- Entries sorted strictly ascending by price (sorted, no duplicate
prices — the maintained shape of a spill side). -/
def SortedS (l : List (Int × Nat)) : Prop :=
  l.Pairwise fun a b => a.1 < b.1

instance (l : List (Int × Nat)) : Decidable (SortedS l) := by
  unfold SortedS; infer_instance

/-!
Claim theorems.
-/

set_option maxRecDepth 4000

/-- C1. The claim says `set_qty(p, 0, sink)` on an in-window price whose
cell is zero returns `Erase`; the modular header (`tape.hpp` line 138,
the claim's cited code) returns `Update` instead — contradicting spec
§4.1 and the repo's own test (`test_book_basic.cpp` line 30 asserts
`Erase` for exactly this double-cancel through the modular header, and
the single-include header does return `Erase`). Evaluating the cited
code at the failing input: price 1005 in the window of a freshly reset
`N = 256` tape anchored at 1000, cell zero, quantity zero. The call is
indeed a no-op on cells, bitmap, best index and sink, but the result is
`Update`, not `Erase`. -/
theorem c1_zero_cell_zero_qty_returns_update :
    Tape.setQty 256 (mkTape 256 true 1000) 1005 0 =
      (UpdateResult.Update, mkTape 256 true 1000, []) := by
  decide

/-- C2. The claim (spec invariant 3) says the anchor always stays in
`[min_price + N - 1, max_price - N + 1]`, and in particular the clamped
anchor of the promotion path of `set`. The code violates this: from the
reachable book `Book<64, i32, u32>` reset at anchor 0, the call
`set<true>(min_price, 1)` promotes (empty tape, out-of-window price),
`compute_anchor` clamps `A` up to `min_valid_anchor`, but the final
`A ≤ price` clamp (`book.hpp` line 102) drags `A` down to
`price = min_price`, which is below `min_valid_anchor = min_price + 63`.
The call then re-centers to that out-of-range anchor — the very
condition asserted at `tape.hpp` line 166 and assumed at `book.hpp`
line 103 — and returns `Insert` with the bid anchor out of range. -/
theorem c2_promotion_clamp_escapes_anchor_range :
    (bookSet 64 true (mkBook 64 4 0) minPx 1).1 = UpdateResult.Insert ∧
    (bookSet 64 true (mkBook 64 4 0) minPx 1).2.1.bids.anchor = minPx ∧
    ¬ anchorValid 64 minPx := by
  refine ⟨by decide, by decide, by decide⟩

/-- C5, as stated, is false: the two `set_qty` implementations do not
always return the same `UpdateResult`. On a freshly reset `N = 64` bid
tape anchored at 0, price 5 (in-window, cell zero) with quantity 0, the
modular header returns `Update` and the single-include header returns
`Erase`. -/
theorem c5_counterexample :
    (Tape.setQty 64 (mkTape 64 true 0) 5 0).1 ≠
      (Tape.setQtySI 64 (mkTape 64 true 0) 5 0).1 := by
  decide

/-- C5 amended. For every tape state, price, quantity and sink, the two
`set_qty` implementations leave the tape in the same post-state and make
the same sink pushes; they return the same `UpdateResult` in every case
except when the price is in-window with a zero cell and the incoming
quantity is zero, where the modular header returns `Update` and the
single-include header returns `Erase`. -/
theorem c5_setqty_equivalence_amended (N : Nat) (t : Tape) (px : Int) (q : Nat) :
    (Tape.setQty N t px q).2 = (Tape.setQtySI N t px q).2 ∧
    (¬ (t.idxFromPrice N px < 0 ∨ (N : Int) ≤ t.idxFromPrice N px) →
      q = 0 → t.qtyAt (t.idxFromPrice N px).toNat = 0 →
      (Tape.setQty N t px q).1 = UpdateResult.Update ∧
      (Tape.setQtySI N t px q).1 = UpdateResult.Erase) ∧
    ((t.idxFromPrice N px < 0 ∨ (N : Int) ≤ t.idxFromPrice N px) ∨ q ≠ 0 ∨
      t.qtyAt (t.idxFromPrice N px).toNat ≠ 0 →
      (Tape.setQty N t px q).1 = (Tape.setQtySI N t px q).1) := by
  simp only [Tape.setQty, Tape.setQtySI]
  split_ifs <;> simp_all

/-- C5 witness: at the concrete divergence point the amended theorem
yields the two stated results. -/
theorem c5_witness :
    (Tape.setQty 64 (mkTape 64 true 0) 5 0).1 = UpdateResult.Update ∧
    (Tape.setQtySI 64 (mkTape 64 true 0) 5 0).1 = UpdateResult.Erase :=
  (c5_setqty_equivalence_amended 64 (mkTape 64 true 0) 5 0).2.1
    (by decide) (by decide) (by decide)

/-- Tape best prices always lie in the representable range: the empty
sentinels are the range endpoints and occupied bests are truncated to
`i32`. -/
theorem bestPx_mem_range (N : Nat) (t : Tape) :
    minPx ≤ t.bestPx N ∧ t.bestPx N ≤ maxPx := by
  unfold Tape.bestPx Tape.priceFromIdx
  split_ifs <;>
    first
      | exact ⟨le_refl _, by norm_num [minPx, maxPx]⟩
      | exact ⟨by norm_num [minPx, maxPx], le_refl _⟩
      | exact wrapI32_mem_range _

/-- C9. For every book state (reachable or not), if `crossed_on_tape()`
holds then `crossed()` holds: the global best bid is at least the tape
best bid, the global best ask is at most the tape best ask, and the
sentinel inequalities follow from the `i32` range of tape bests. -/
theorem c9_crossed_on_tape_implies_crossed (N : Nat) (b : BookS)
    (h : crossedOnTape N b) : crossedB N b := by
  obtain ⟨hb, ha, hba⟩ := h
  have hbr := bestPx_mem_range N b.bids
  have har := bestPx_mem_range N b.asks
  have h1 : minPx < Tape.bestPx N b.bids := lt_of_le_of_ne hbr.1 (Ne.symm hb)
  have h2 : Tape.bestPx N b.asks < maxPx := lt_of_le_of_ne har.2 ha
  simp only [crossedB, bestBidPx, bestAskPx]
  refine ⟨?_, ?_, ?_⟩
  · split_ifs with hc
    · exact ne_of_gt h1
    · exact ne_of_gt (lt_of_lt_of_le h1 (not_lt.mp hc))
  · split_ifs with hc
    · exact ne_of_lt h2
    · exact ne_of_lt (lt_of_le_of_lt (not_lt.mp hc) h2)
  · have hbb : Tape.bestPx N b.bids ≤
        (if SideD.bestPxS true b.spill.bid < Tape.bestPx N b.bids
         then Tape.bestPx N b.bids else SideD.bestPxS true b.spill.bid) := by
      split_ifs with hc
      · exact le_refl _
      · exact not_lt.mp hc
    have haa : (if Tape.bestPx N b.asks < SideD.bestPxS false b.spill.ask
         then Tape.bestPx N b.asks else SideD.bestPxS false b.spill.ask) ≤
        Tape.bestPx N b.asks := by
      split_ifs with hc
      · exact le_refl _
      · exact not_lt.mp hc
    linarith

/-- Concrete crossed state for C9: bid best 1010 on the tape, ask best
1005 on the tape, empty spill. -/
def crossedBookC : BookS :=
  { bids := { qty := (List.replicate 64 0).set 10 7,
              bits := (List.replicate 64 false).set 10 true,
              anchor := 1000, bestIdx := 10, isBid := true },
    asks := { qty := (List.replicate 64 0).set 5 9,
              bits := (List.replicate 64 false).set 5 true,
              anchor := 1000, bestIdx := 5, isBid := false },
    spill := { bid := { entries := [], cap := 0, maxCap := 4 },
               ask := { entries := [], cap := 0, maxCap := 4 } } }

/-- C9 witness: a concrete crossed-on-tape book is crossed. -/
theorem c9_witness : crossedOnTape 64 crossedBookC ∧ crossedB 64 crossedBookC :=
  ⟨by decide, c9_crossed_on_tape_implies_crossed 64 crossedBookC (by decide)⟩

theorem foldl_bit_of_none (x : Nat) (ks : List Nat) (a : Nat)
    (h : ∀ k ∈ ks, ¬ 2 ^ k ≤ x) :
    ks.foldl (fun acc k => if 2 ^ k ≤ x then k + 1 else acc) a = a := by
  induction ks generalizing a with
  | nil => rfl
  | cons k ks ih =>
    simp only [List.foldl_cons, if_neg (h k (List.mem_cons_self k ks))]
    exact ih a fun j hj => h j (List.mem_cons_of_mem k hj)

theorem foldl_bit_upto (x L a : Nat) (h : 2 ^ L ≤ x) :
    (List.range (L + 1)).foldl (fun acc k => if 2 ^ k ≤ x then k + 1 else acc) a
      = L + 1 := by
  induction L generalizing a with
  | zero =>
    have h1 : List.range 1 = [0] := rfl
    have h2 : (1 : Nat) ≤ x := by simpa using h
    simp only [h1, List.foldl_cons, List.foldl_nil, pow_zero, if_pos h2]
  | succ L ih =>
    rw [List.range_succ, List.foldl_append]
    have hL : 2 ^ L ≤ x := le_trans (Nat.pow_le_pow_right (by norm_num) (Nat.le_succ L)) h
    rw [ih a hL]
    simp only [List.foldl_cons, List.foldl_nil, if_pos h]

theorem bitLen_eq_log (x : Nat) (hx : x ≠ 0) (h32 : x < 2 ^ 32) :
    bitLen x = Nat.log 2 x + 1 := by
  have hL32 : Nat.log 2 x < 32 := (Nat.lt_pow_iff_log_lt (by norm_num) hx).1 h32
  have hsplit : (32 : Nat) = (Nat.log 2 x + 1) + (32 - (Nat.log 2 x + 1)) := by omega
  unfold bitLen
  rw [hsplit, List.range_add, List.foldl_append,
    foldl_bit_upto x (Nat.log 2 x) 0 (Nat.pow_log_le_self 2 hx)]
  apply foldl_bit_of_none
  intro k hk
  simp only [List.mem_map, List.mem_range] at hk
  obtain ⟨j, _, rfl⟩ := hk
  have hgt : x < 2 ^ (Nat.log 2 x + 1) := Nat.lt_pow_succ_log_self (by norm_num) x
  have : 2 ^ (Nat.log 2 x + 1) ≤ 2 ^ (Nat.log 2 x + 1 + j) :=
    Nat.pow_le_pow_right (by norm_num) (by omega)
  omega

theorem clog_two_eq_log_pred (n : Nat) (hn : 2 ≤ n) :
    Nat.clog 2 n = Nat.log 2 (n - 1) + 1 := by
  apply le_antisymm
  · rw [← Nat.le_pow_iff_clog_le (by norm_num)]
    have := Nat.lt_pow_succ_log_self (b := 2) (by norm_num) (n - 1)
    omega
  · have h1 : 2 ^ Nat.log 2 (n - 1) ≤ n - 1 := Nat.pow_log_le_self 2 (by omega)
    have h2 : 2 ^ Nat.log 2 (n - 1) < n := by omega
    have := (Nat.pow_lt_iff_lt_clog (by norm_num)).1 h2
    omega

/-- C8. For every pool state and requested capacity (any value a
positive `i32` can hold), `size_class` equals the claimed
`⌈log₂ max(cap, 16)⌉ - 4` clamped to `[0, 11]`; `allocate` pops the head
of the free list of the class when it is non-empty; otherwise it bumps
the watermark by `class_size` when the block fits in the arena;
otherwise it returns null, bumps `alloc_fail_count` by one and leaves
the watermark and free lists unchanged — and `alloc_fail_count` is
bumped exactly when null is returned. -/
theorem c8_size_class_and_allocate (p : SpillPoolS) (cap : Nat)
    (hcap : cap ≤ 2 ^ 31) :
    sizeClass cap = min 11 (Nat.clog 2 (max cap 16) - 4) ∧
    (∀ off rest, (p.freeHeads[sizeClass cap]?).getD [] = off :: rest →
      p.allocate cap =
        (some off, { p with freeHeads := p.freeHeads.set (sizeClass cap) rest })) ∧
    ((p.freeHeads[sizeClass cap]?).getD [] = [] →
      (p.watermark + classSize (sizeClass cap) ≤ p.arenaCap →
        p.allocate cap =
          (some p.watermark,
           { p with watermark := p.watermark + classSize (sizeClass cap) })) ∧
      (¬ p.watermark + classSize (sizeClass cap) ≤ p.arenaCap →
        p.allocate cap =
          (none, { p with allocFailCount := p.allocFailCount + 1 }))) ∧
    ((p.allocate cap).1 = none ↔
      (p.allocate cap).2.allocFailCount = p.allocFailCount + 1) := by
  refine ⟨?_, ?_, ?_, ?_⟩
  · by_cases hle : cap ≤ MIN_BLOCK
    · have h16 : max cap 16 = 16 := by
        simp only [MIN_BLOCK] at hle; omega
      have hclog : Nat.clog 2 16 = 4 := by
        have : (16 : Nat) = 2 ^ 4 := by norm_num
        rw [this, Nat.clog_pow 2 4 (by norm_num)]
      simp [sizeClass, hle, h16, hclog]
    · have h17 : 17 ≤ cap := by simp only [MIN_BLOCK] at hle; omega
      have hmax : max cap 16 = cap := by omega
      have hbl : bitLen (cap - 1) = Nat.log 2 (cap - 1) + 1 :=
        bitLen_eq_log (cap - 1) (by omega) (by norm_num at hcap ⊢; omega)
      have hclog : Nat.clog 2 cap = Nat.log 2 (cap - 1) + 1 :=
        clog_two_eq_log_pred cap (by omega)
      simp only [sizeClass, if_neg hle, hmax, hclog, hbl, NUM_CLASSES]
  · intro off rest hfr
    simp only [SpillPoolS.allocate, hfr]
  · intro hfr
    constructor
    · intro hfit
      simp only [SpillPoolS.allocate, hfr, if_pos hfit]
    · intro hfit
      simp only [SpillPoolS.allocate, hfr, if_neg hfit]
  · simp only [SpillPoolS.allocate]
    cases hfr : (p.freeHeads[sizeClass cap]?).getD [] with
    | nil =>
      by_cases hfit : p.watermark + classSize (sizeClass cap) ≤ p.arenaCap <;>
        simp [hfit]
    | cons off rest => simp

/-- Concrete pool for the C8 witness: empty free lists, 64-level arena. -/
def c8pool : SpillPoolS :=
  { arenaCap := 64, watermark := 0,
    freeHeads := List.replicate 12 [], allocFailCount := 0 }

/-- C8 witness: requesting 20 levels on the fresh pool maps to class 1
(block of 32 levels) and bump-allocates offset 0. -/
theorem c8_witness :
    c8pool.allocate 20 =
      (some c8pool.watermark,
       { c8pool with watermark := c8pool.watermark + classSize (sizeClass 20) }) :=
  ((c8_size_class_and_allocate c8pool 20 (by norm_num)).2.2.1 (by decide)).1 (by decide)

@[simp]
theorem ensureCap_entries (s : SideD) : s.ensureCap.entries = s.entries := by
  simp only [SideD.ensureCap]; split_ifs <;> rfl

@[simp]
theorem ensureCap_maxCap (s : SideD) : s.ensureCap.maxCap = s.maxCap := by
  simp only [SideD.ensureCap]; split_ifs <;> rfl

/-- Every entry of an `add_point` result is either an old entry or the
incoming `(px, q)` with `q ≠ 0`; this holds for every starting state
(all branches only remove entries, overwrite the matching entry with
`q ≠ 0`, or insert `(px, q)` with `q ≠ 0`). -/
theorem addPoint_mem (isBid : Bool) (s : SideD) (px : Int) (q : Nat) :
    ∀ e ∈ (SideD.addPoint isBid s px q).1.entries,
      e ∈ s.entries ∨ (e = (px, q) ∧ q ≠ 0) := by
  intro e he
  simp only [SideD.addPoint, SideD.addPointCore] at he
  split_ifs at he <;>
    simp only [ensureCap_entries, List.mem_append, List.mem_cons] at he
  all_goals
    first
      | (left; exact he)
      | (rcases List.mem_or_eq_of_mem_set he with h1 | h1
         · exact Or.inl h1
         · subst h1; right; exact ⟨rfl, by assumption⟩)
      | (rcases he with he | he
         · left; exact List.mem_of_mem_take he
         · left; exact List.mem_of_mem_drop he)
      | (rcases he with he | he | he
         · left
           first
             | exact List.mem_of_mem_take he
             | exact List.mem_of_mem_take (List.mem_of_mem_drop he)
             | exact List.mem_of_mem_take (List.mem_of_mem_take he)
             | exact List.mem_of_mem_drop (List.mem_of_mem_take he)
         · subst he; right; exact ⟨rfl, by assumption⟩
         · left
           first
             | exact List.mem_of_mem_drop he
             | exact List.mem_of_mem_drop (List.mem_of_mem_drop he)
             | exact List.mem_of_mem_take (List.mem_of_mem_drop he))

/-- The drained side keeps only old entries. -/
theorem drainRange_mem (s : SideD) (lo hi : Int) :
    ∀ e ∈ (s.drainRange lo hi).2.entries, e ∈ s.entries := by
  intro e he
  simp only [SideD.drainRange] at he
  split_ifs at he
  · exact he
  · simp only [List.mem_append] at he
    rcases he with he | he
    · exact List.mem_of_mem_take he
    · exact List.mem_of_mem_drop (List.mem_of_mem_drop he)

/-- States of one spill side reachable from the fresh empty side through
the public side operations. -/
inductive ReachS (isBid : Bool) (mc : Nat) : SideD → Prop where
  | empty : ReachS isBid mc { entries := [], cap := 0, maxCap := mc }
  | push (s : SideD) (px : Int) (q : Nat) :
      ReachS isBid mc s → ReachS isBid mc (SideD.addPoint isBid s px q).1
  | drain (s : SideD) (lo hi : Int) :
      ReachS isBid mc s → ReachS isBid mc (s.drainRange lo hi).2
  | eraseB (s : SideD) (th : Int) :
      ReachS isBid mc s → ReachS isBid mc (s.eraseBetterS isBid th)
  | clear (s : SideD) : ReachS isBid mc s → ReachS isBid mc s.clearS

/-- C10. In every spill-side state reachable from empty via `push`,
`drain`, `erase_better` and `clear`, every stored entry has a non-zero
quantity; consequently `best_qty` of a non-empty side is non-zero, and
the non-zero-quantity filter inside `drain_range` never skips an entry
(the visited list is the whole scanned segment). -/
theorem c10_spill_quantities_nonzero (isBid : Bool) (mc : Nat) (s : SideD)
    (h : ReachS isBid mc s) :
    (∀ e ∈ s.entries, e.2 ≠ 0) ∧
    (s.entries ≠ [] → SideD.bestQtyS isBid s ≠ 0) ∧
    (∀ lo hi, (s.drainRange lo hi).1 =
      (s.entries.drop (s.lb lo)).takeWhile fun e => decide (e.1 ≤ hi)) := by
  have hnz : ∀ e ∈ s.entries, e.2 ≠ 0 := by
    induction h with
    | empty => intro e he; simp at he
    | push s px q hs ih =>
      intro e he
      rcases addPoint_mem _ s px q e he with h1 | ⟨rfl, hq⟩
      · exact ih e h1
      · exact hq
    | drain s lo hi hs ih =>
      intro e he
      exact ih e (drainRange_mem s lo hi e he)
    | eraseB s th hs ih =>
      intro e he
      unfold SideD.eraseBetterS at he
      split_ifs at he <;>
        exact ih e (List.mem_of_mem_filter he)
    | clear s hs ih =>
      intro e he
      simp [SideD.clearS] at he
  refine ⟨hnz, ?_, ?_⟩
  · intro hne
    unfold SideD.bestQtyS
    rw [if_neg (by simpa [List.length_eq_zero] using hne)]
    split_ifs
    · cases hlast : s.entries.getLast? with
      | none => exact absurd (List.getLast?_eq_none_iff.mp hlast) hne
      | some e =>
        obtain ⟨hne2, he⟩ := List.mem_getLast?_eq_getLast (l := s.entries) (x := e)
          (by simp [hlast, Option.mem_def])
        have hm : e ∈ s.entries := he ▸ List.getLast_mem hne2
        simpa [hlast] using hnz e hm
    · cases hhead : s.entries.head? with
      | none => exact absurd (List.head?_eq_none_iff.mp hhead) hne
      | some e =>
        have hm : e ∈ s.entries := List.mem_of_mem_head? (by simp [hhead])
        simpa [hhead] using hnz e hm
  · intro lo hi
    unfold SideD.drainRange
    split_ifs with hlen
    · have : s.entries = [] := List.length_eq_zero.mp hlen
      simp [this]
    · apply List.filter_eq_self.mpr
      intro e he
      have hm : e ∈ s.entries :=
        List.mem_of_mem_drop (List.takeWhile_subset _ he)
      simpa using hnz e hm

/-- Concrete reachable state for the C10 witness: two pushes onto the
empty bid side. -/
def c10state : SideD :=
  (SideD.addPoint true (SideD.addPoint true
     { entries := [], cap := 0, maxCap := 4 } 100 7).1 105 9).1

/-- C10 witness: the concrete reachable state has only non-zero
quantities, a non-zero best quantity, and an unfiltered drain segment. -/
theorem c10_witness :
    (∀ e ∈ c10state.entries, e.2 ≠ 0) ∧
    (c10state.entries ≠ [] → SideD.bestQtyS true c10state ≠ 0) ∧
    (∀ lo hi, (c10state.drainRange lo hi).1 =
      (c10state.entries.drop (c10state.lb lo)).takeWhile fun e => decide (e.1 ≤ hi)) :=
  c10_spill_quantities_nonzero true 4 c10state
    (ReachS.push _ 105 9 (ReachS.push _ 100 7 ReachS.empty))

/-- `set_qty` never moves the anchor. -/
theorem setQty_anchor (N : Nat) (t : Tape) (px : Int) (q : Nat) :
    (Tape.setQty N t px q).2.1.anchor = t.anchor := by
  simp only [Tape.setQty]
  split_ifs <;> rfl

/-- `set_qty` can only return `Promote` for a non-zero quantity. -/
theorem setQty_promote_q_ne (N : Nat) (t : Tape) (px : Int) (q : Nat)
    (h : (Tape.setQty N t px q).1 = UpdateResult.Promote) : q ≠ 0 := by
  simp only [Tape.setQty] at h
  split_ifs at h <;> simp_all

/-- `set_qty` at an in-window price with a non-zero quantity returns
`Insert` or `Update`. -/
theorem setQty_inwindow_result (N : Nat) (t : Tape) (px : Int) (q : Nat)
    (hin : 0 ≤ px - t.anchor ∧ px - t.anchor < (N : Int)) (hq : q ≠ 0) :
    (Tape.setQty N t px q).1 = UpdateResult.Insert ∨
    (Tape.setQty N t px q).1 = UpdateResult.Update := by
  have hidx : t.idxFromPrice N px = px - t.anchor := by
    simp only [Tape.idxFromPrice, if_pos hin]
  simp only [Tape.setQty, hidx]
  rw [if_neg (by omega)]
  rw [if_neg (by simp [hq])]
  rw [if_neg hq]
  split_ifs <;> simp

/-- `recenter_to_anchor` installs the new anchor. -/
theorem recenter_anchor (N : Nat) (t : Tape) (A : Int) :
    (Tape.recenter N t A).1.anchor = A := by
  simp only [Tape.recenter]
  split_ifs with h0 <;>
    first
      | (show t.anchor = A
         omega)
      | rfl

/-- The drain fold of `set_qty` calls never moves the anchor. -/
theorem foldl_setQty_anchor (N : Nat) (vis : List (Int × Nat)) (t : Tape) :
    (vis.foldl (fun tt e => (Tape.setQty N tt e.1 e.2).2.1) t).anchor = t.anchor := by
  induction vis generalizing t with
  | nil => rfl
  | cons e vis ih =>
    simp only [List.foldl_cons]
    rw [ih, setQty_anchor]

/-- The promotion-path anchor `A` (clamped `compute_anchor`) always has
the incoming price inside its window `[A, A + N - 1]`. -/
theorem clampA_inwindow (N : Nat) (hN : 0 < N) (px : Int) (hpx : px ≤ maxPx) :
    (if px < (if computeAnchor N px ((N : Int) / 2) < computeAnchor N px ((N : Int) - 1)
              then computeAnchor N px ((N : Int) - 1)
              else computeAnchor N px ((N : Int) / 2))
      then px
      else (if computeAnchor N px ((N : Int) / 2) < computeAnchor N px ((N : Int) - 1)
            then computeAnchor N px ((N : Int) - 1)
            else computeAnchor N px ((N : Int) / 2))) ≤ px ∧
    px < (if px < (if computeAnchor N px ((N : Int) / 2) < computeAnchor N px ((N : Int) - 1)
              then computeAnchor N px ((N : Int) - 1)
              else computeAnchor N px ((N : Int) / 2))
      then px
      else (if computeAnchor N px ((N : Int) / 2) < computeAnchor N px ((N : Int) - 1)
            then computeAnchor N px ((N : Int) - 1)
            else computeAnchor N px ((N : Int) / 2))) + (N : Int) := by
  have hpx2 : px ≤ (2147483647 : Int) := hpx
  have hN2 : (1 : Int) ≤ (N : Int) := by exact_mod_cast hN
  simp only [computeAnchor, minPx, maxPx]
  norm_num
  split_ifs <;> omega

/-- C3. For every tape and spill-side state, side, representable price
and quantity, the book-level `set` never returns `Promote`: when the
first `set_qty` reports `Promote`, the re-center-and-retry path retries
at a price inside the new window with a non-zero quantity, so the
returned terminal result is `Insert` or `Update`. -/
theorem c3_book_set_never_promotes (N : Nat) (hN : 0 < N) (isBid : Bool)
    (t : Tape) (sp : SideD) (px : Int) (q : Nat) (hpx : px ≤ maxPx) :
    (setImpl N isBid t sp px q).1 ≠ UpdateResult.Promote ∧
    ((Tape.setQty N t px q).1 = UpdateResult.Promote →
      (setImpl N isBid t sp px q).1 = UpdateResult.Insert ∨
      (setImpl N isBid t sp px q).1 = UpdateResult.Update) := by
  by_cases hp : (Tape.setQty N t px q).1 = UpdateResult.Promote
  · have hq : q ≠ 0 := setQty_promote_q_ne N t px q hp
    have hA := clampA_inwindow N hN px hpx
    have hres : (setImpl N isBid t sp px q).1 = UpdateResult.Insert ∨
        (setImpl N isBid t sp px q).1 = UpdateResult.Update := by
      simp only [setImpl, hp, ne_eq, not_true_eq_false, if_false]
      apply setQty_inwindow_result
      · rw [foldl_setQty_anchor, recenter_anchor]
        omega
      · exact hq
    exact ⟨fun hc => by rcases hres with h | h <;> simp [h] at hc, fun _ => hres⟩
  · refine ⟨?_, fun hc => absurd hc hp⟩
    simp only [setImpl, ne_eq, hp, not_false_eq_true, if_true]

/-- C3 witness: a promoting call (empty `N = 64` bid tape anchored at 0,
price 200 out of window) terminates without `Promote`. -/
theorem c3_witness :
    (setImpl 64 true (mkTape 64 true 0) { entries := [], cap := 0, maxCap := 4 }
       200 5).1 ≠ UpdateResult.Promote ∧
    ((Tape.setQty 64 (mkTape 64 true 0) 200 5).1 = UpdateResult.Promote →
      (setImpl 64 true (mkTape 64 true 0) { entries := [], cap := 0, maxCap := 4 }
         200 5).1 = UpdateResult.Insert ∨
      (setImpl 64 true (mkTape 64 true 0) { entries := [], cap := 0, maxCap := 4 }
         200 5).1 = UpdateResult.Update) :=
  c3_book_set_never_promotes 64 (by norm_num) true (mkTape 64 true 0)
    { entries := [], cap := 0, maxCap := 4 } 200 5 (by norm_num [maxPx])

/-- Representation well-formedness of a tape: array lengths are `N` and
the bitmap agrees with the cells (spec invariant 1). -/
def TapeWF (N : Nat) (t : Tape) : Prop :=
  t.qty.length = N ∧ t.bits.length = N ∧
  ∀ i, i < N → (t.bitAt i = true ↔ t.qtyAt i ≠ 0)

instance (N : Nat) (t : Tape) : Decidable (TapeWF N t) := by
  unfold TapeWF Tape.bitAt Tape.qtyAt; infer_instance

theorem mem_forEachSetIdx (N : Nat) (t : Tape) (L R : Int) (j : Nat) :
    j ∈ t.forEachSetIdx N L R ↔
      j < N ∧ L ≤ (j : Int) ∧ (j : Int) ≤ R ∧ t.bitAt j = true := by
  simp [Tape.forEachSetIdx, List.mem_filter, List.mem_range, and_assoc]

theorem foldl_set_zero_getElem (idxs : List Nat) (l : List Nat) (j : Nat) :
    (idxs.foldl (fun acc i => acc.set i 0) l)[j]? =
      if j ∈ idxs then l[j]?.map (fun _ => 0) else l[j]? := by
  induction idxs generalizing l with
  | nil => simp
  | cons i is ih =>
    simp only [List.foldl_cons, ih (l.set i 0), List.getElem?_set, List.length_set]
    by_cases hji : j ∈ is
    · rw [if_pos hji, if_pos (List.mem_cons_of_mem i hji)]
      by_cases hij : i = j
      · subst hij
        by_cases hlen : i < l.length
        · simp [hlen]
        · simp [hlen, List.getElem?_eq_none (Nat.le_of_not_lt hlen)]
      · simp [hij]
    · rw [if_neg hji]
      by_cases hij : i = j
      · subst hij
        rw [if_pos (List.mem_cons_self i is)]
        by_cases hlen : i < l.length
        · simp [hlen]
        · simp [hlen, List.getElem?_eq_none (Nat.le_of_not_lt hlen)]
      · rw [if_neg hij, if_neg (by simp [hji, Ne.symm hij])]

theorem foldl_set_zero_length (idxs : List Nat) (l : List Nat) :
    (idxs.foldl (fun acc i => acc.set i 0) l).length = l.length := by
  induction idxs generalizing l with
  | nil => rfl
  | cons i is ih => simp [List.foldl_cons, ih]

/-- `erase_range` keeps the anchor. -/
theorem eraseRange_anchor (N : Nat) (t : Tape) (s e : Nat) :
    (t.eraseRange N s e).anchor = t.anchor := by
  simp only [Tape.eraseRange]
  split_ifs <;> rfl

/-- On a well-formed tape, `erase_range(s, e)` zeroes exactly the cells
in `[s, e]` (it zeroes the cells whose bit is set there, and consistency
makes the bit-clear cells already zero). -/
theorem eraseRange_qtyAt (N : Nat) (t : Tape) (s e : Nat) (hwf : TapeWF N t)
    (j : Nat) (hj : j < N) :
    (t.eraseRange N s e).qtyAt j =
      if s ≤ j ∧ j ≤ e then 0 else t.qtyAt j := by
  obtain ⟨hql, hbl, hcons⟩ := hwf
  by_cases hes : e < s
  · simp only [Tape.eraseRange, if_pos hes]
    rw [if_neg (by omega)]
  · have hq : ∀ t2 : Tape, t2.qty = (t.spillCells (t.forEachSetIdx N (s : Int) (e : Int))).2 →
        t2.qtyAt j = if s ≤ j ∧ j ≤ e then 0 else t.qtyAt j := by
      intro t2 ht2
      simp only [Tape.qtyAt, ht2, Tape.spillCells, foldl_set_zero_getElem]
      by_cases hmem : j ∈ t.forEachSetIdx N (s : Int) (e : Int)
      · rw [if_pos hmem]
        have := (mem_forEachSetIdx N t (s : Int) (e : Int) j).1 hmem
        rw [if_pos (by omega)]
        cases hgl : t.qty[j]? <;> simp
      · rw [if_neg hmem]
        by_cases hrange : s ≤ j ∧ j ≤ e
        · rw [if_pos hrange]
          have hbit : ¬ t.bitAt j = true := by
            intro hb
            exact hmem ((mem_forEachSetIdx N t (s : Int) (e : Int) j).2
              ⟨hj, by omega, by omega, hb⟩)
          have hq0 : t.qtyAt j = 0 := by
            by_contra hne
            exact hbit ((hcons j hj).2 hne)
          exact hq0
        · rw [if_neg hrange]
    simp only [Tape.eraseRange, if_neg hes]
    exact hq _ (by split_ifs <;> rfl)

/-- `erase_better` on the tape keeps the anchor. -/
theorem eraseBetterT_anchor (N : Nat) (t : Tape) (px : Int) :
    (t.eraseBetterT N px).anchor = t.anchor := by
  simp only [Tape.eraseBetterT]
  split_ifs <;> first | rfl | rw [eraseRange_anchor]

/-- In-window effect of the tape part of `erase_better`: on a
well-formed tape, the cell of an in-window price `p` survives exactly
when `p` is strictly worse than the threshold. -/
theorem eraseBetterT_qtyAt (N : Nat) (hN : 0 < N) (t : Tape) (px : Int)
    (hwf : TapeWF N t) (p : Int) (hp : inWindow N t p) :
    (t.eraseBetterT N px).qtyAt (p - t.anchor).toNat =
      if (if t.isBid then p < px else px < p) then t.qtyAt (p - t.anchor).toNat
      else 0 := by
  obtain ⟨hlo, hhi⟩ := hp
  have hjN : (p - t.anchor).toNat < N := by omega
  simp only [Tape.eraseBetterT]
  split_ifs with hbid h1 h2 h3 h1 h2 h3
  · -- bid, offset < 0: whole tape cleared; p ≥ anchor > px - 1 contradicts p < px
    omega
  · rw [eraseRange_qtyAt N t 0 (N - 1) hwf _ hjN, if_pos (by omega)]
  · -- bid, offset ≥ N: untouched; p < anchor + N ≤ px
    rfl
  · omega
  · -- bid, in-window threshold: erased iff index ≥ offset
    rw [eraseRange_qtyAt N t (px - t.anchor).toNat (N - 1) hwf _ hjN,
      if_neg (by omega)]
  · rw [eraseRange_qtyAt N t (px - t.anchor).toNat (N - 1) hwf _ hjN,
      if_pos (by omega)]
  · -- ask, offset < 0: untouched; px < anchor ≤ p
    rfl
  · omega
  · -- ask, offset ≥ N: whole tape cleared; p ≤ anchor + N - 1 < px... px ≥ anchor + N > p
    omega
  · rw [eraseRange_qtyAt N t 0 (N - 1) hwf _ hjN, if_pos (by omega)]
  · -- ask, in-window threshold: erased iff index ≤ offset
    rw [eraseRange_qtyAt N t 0 (px - t.anchor).toNat hwf _ hjN,
      if_neg (by omega)]
  · rw [eraseRange_qtyAt N t 0 (px - t.anchor).toNat hwf _ hjN,
      if_pos (by omega)]

/-- `spLookup` through a price-predicate filter. -/
theorem spLookup_filter (f : Int → Bool) (l : List (Int × Nat)) (p : Int) :
    spLookup (l.filter fun e => f e.1) p = if f p then spLookup l p else 0 := by
  induction l with
  | nil => simp [spLookup]
  | cons e l ih =>
    simp only [List.filter_cons]
    by_cases hf : f e.1 = true
    · by_cases hep : e.1 = p
      · subst hep
        simp [hf, spLookup]
      · simp [hf, spLookup, hep, ih]
    · by_cases hep : e.1 = p
      · subst hep
        simp only [Bool.not_eq_true] at hf
        simp [hf, spLookup, ih]
      · simp [hf, spLookup, hep, ih]

/-- C6. For every book state whose tapes are well-formed (bitmap agrees
with cells, the maintained invariant) and every threshold, after
`erase_better_bid(t)` the remaining bid levels — the union of bid tape
and bid spill as a price-to-qty map — are exactly the previous bid
levels with price `< t`, each with its previous quantity; symmetrically
`erase_better_ask(t)` keeps exactly the ask levels with price `> t`. -/
theorem c6_erase_better_keeps_worse (N : Nat) (hN : 0 < N) (b : BookS) (px : Int)
    (hwfb : TapeWF N b.bids) (hwfa : TapeWF N b.asks)
    (hbb : b.bids.isBid = true) (hba : b.asks.isBid = false) :
    (∀ p, sideLookup N (bookEraseBetter N true b px).bids
        (bookEraseBetter N true b px).spill.bid p =
      if p < px then sideLookup N b.bids b.spill.bid p else 0) ∧
    (∀ p, sideLookup N (bookEraseBetter N false b px).asks
        (bookEraseBetter N false b px).spill.ask p =
      if px < p then sideLookup N b.asks b.spill.ask p else 0) := by
  have hb1 : bookEraseBetter N true b px =
      { bids := b.bids.eraseBetterT N px, asks := b.asks,
        spill := { bid := b.spill.bid.eraseBetterS true px, ask := b.spill.ask } } := rfl
  have hb2 : bookEraseBetter N false b px =
      { bids := b.bids, asks := b.asks.eraseBetterT N px,
        spill := { bid := b.spill.bid, ask := b.spill.ask.eraseBetterS false px } } := rfl
  have hs1 : (b.spill.bid.eraseBetterS true px).entries =
      b.spill.bid.entries.filter fun e => decide (¬ px ≤ e.1) := rfl
  have hs2 : (b.spill.ask.eraseBetterS false px).entries =
      b.spill.ask.entries.filter fun e => decide (¬ e.1 ≤ px) := rfl
  constructor
  · intro p
    rw [hb1]
    by_cases hin : inWindow N b.bids p
    · have hin2 : inWindow N (b.bids.eraseBetterT N px) p := by
        unfold inWindow at hin ⊢
        rw [eraseBetterT_anchor]; exact hin
      rw [sideLookup, if_pos hin2, sideLookup, if_pos hin, eraseBetterT_anchor]
      have := eraseBetterT_qtyAt N hN b.bids px hwfb p hin
      rw [hbb] at this
      simpa using this
    · have hin2 : ¬ inWindow N (b.bids.eraseBetterT N px) p := by
        unfold inWindow at hin ⊢
        rw [eraseBetterT_anchor]; exact hin
      rw [sideLookup, if_neg hin2, sideLookup, if_neg hin, hs1,
        spLookup_filter (fun x => decide (¬ px ≤ x)) b.spill.bid.entries p]
      by_cases hlt : p < px
      · rw [if_pos (by simp; omega), if_pos hlt]
      · rw [if_neg (by simp; omega), if_neg hlt]
  · intro p
    rw [hb2]
    by_cases hin : inWindow N b.asks p
    · have hin2 : inWindow N (b.asks.eraseBetterT N px) p := by
        unfold inWindow at hin ⊢
        rw [eraseBetterT_anchor]; exact hin
      rw [sideLookup, if_pos hin2, sideLookup, if_pos hin, eraseBetterT_anchor]
      have := eraseBetterT_qtyAt N hN b.asks px hwfa p hin
      rw [hba] at this
      simpa using this
    · have hin2 : ¬ inWindow N (b.asks.eraseBetterT N px) p := by
        unfold inWindow at hin ⊢
        rw [eraseBetterT_anchor]; exact hin
      rw [sideLookup, if_neg hin2, sideLookup, if_neg hin, hs2,
        spLookup_filter (fun x => decide (¬ x ≤ px)) b.spill.ask.entries p]
      by_cases hlt : px < p
      · rw [if_pos (by simp; omega), if_pos hlt]
      · rw [if_neg (by simp; omega), if_neg hlt]

/-- Concrete book for the C6 witness: bid level 1003 on the tape. -/
def c6book : BookS :=
  { bids := { qty := (List.replicate 64 0).set 3 7,
              bits := (List.replicate 64 false).set 3 true,
              anchor := 1000, bestIdx := 3, isBid := true },
    asks := mkTape 64 false 1000,
    spill := { bid := { entries := [], cap := 0, maxCap := 4 },
               ask := { entries := [], cap := 0, maxCap := 4 } } }

/-- C6 witness: after `erase_better_bid(1005)`, price 1003 (worse than
the threshold) keeps its quantity. -/
theorem c6_witness :
    sideLookup 64 (bookEraseBetter 64 true c6book 1005).bids
        (bookEraseBetter 64 true c6book 1005).spill.bid 1003 =
      if (1003 : Int) < 1005 then sideLookup 64 c6book.bids c6book.spill.bid 1003
      else 0 :=
  (c6_erase_better_keeps_worse 64 (by norm_num) c6book 1005
    (by decide) (by decide) (by decide) (by decide)).1 1003

/-- Entry read `a[j]` with the all-zero default. -/
def entAt (l : List (Int × Nat)) (j : Nat) : Int × Nat := (l[j]?).getD (0, 0)

theorem sorted_key_lt (l : List (Int × Nat)) (hs : SortedS l) {i j : Nat}
    (hij : i < j) (hj : j < l.length) : (entAt l i).1 < (entAt l j).1 := by
  have hi : i < l.length := lt_trans hij hj
  have := (List.pairwise_iff_getElem).1 hs i j hi hj hij
  simpa [entAt, List.getElem?_eq_getElem, hi, hj] using this

theorem lbAux_spec (l : List (Int × Nat)) (px : Int) (hs : SortedS l) :
    ∀ n lo hi, hi - lo = n → lo ≤ hi → hi ≤ l.length →
      (∀ j, j < lo → (entAt l j).1 < px) →
      (∀ j, hi ≤ j → j < l.length → ¬ (entAt l j).1 < px) →
      lo ≤ lbAux l px lo hi ∧ lbAux l px lo hi ≤ hi ∧
      (∀ j, j < lbAux l px lo hi → (entAt l j).1 < px) ∧
      (∀ j, lbAux l px lo hi ≤ j → j < l.length → ¬ (entAt l j).1 < px) := by
  intro n
  induction n using Nat.strong_induction_on with
  | _ n ih =>
    intro lo hi hn hlohi hhilen hlo hhi
    unfold lbAux
    split_ifs with hlt
    · dsimp only
      by_cases hmid : (entAt l ((lo + hi) / 2)).1 < px
      · rw [if_pos (show (l[(lo + hi) / 2]?.getD (0, 0)).1 < px from hmid)]
        refine (ih (hi - ((lo + hi) / 2 + 1)) (by omega) ((lo + hi) / 2 + 1) hi
          (by omega) (by omega) hhilen ?_ hhi).imp (by omega) id
        intro j hj
        rcases Nat.lt_or_ge j lo with hjlo | hjlo
        · exact hlo j hjlo
        · rcases Nat.lt_or_ge j ((lo + hi) / 2) with hjm | hjm
          · exact lt_trans (sorted_key_lt l hs hjm (by omega)) hmid
          · have : j = (lo + hi) / 2 := by omega
            rw [this]; exact hmid
      · rw [if_neg (show ¬ (l[(lo + hi) / 2]?.getD (0, 0)).1 < px from hmid)]
        refine (ih ((lo + hi) / 2 - lo) (by omega) lo ((lo + hi) / 2)
          (by omega) (by omega) (by omega) hlo ?_).imp id (fun h => ⟨by omega, h.2⟩)
        intro j hj hjlen
        rcases Nat.eq_or_lt_of_le hj with hje | hjl
        · rw [← hje]; exact hmid
        · intro hc
          exact hmid (lt_trans (sorted_key_lt l hs hjl hjlen) hc)
    · have : lo = hi := by omega
      exact ⟨le_refl _, by omega, hlo, fun j hj hjl => hhi j (this ▸ hj) hjl⟩

/-- Specification of `lb` on a sorted side: the first index whose price
is not below `px`. -/
theorem lb_spec (s : SideD) (px : Int) (hs : SortedS s.entries) :
    s.lb px ≤ s.entries.length ∧
    (∀ j, j < s.lb px → (entAt s.entries j).1 < px) ∧
    (∀ j, s.lb px ≤ j → j < s.entries.length → px ≤ (entAt s.entries j).1) := by
  have h := lbAux_spec s.entries px hs (s.entries.length - 0) 0 s.entries.length rfl
    (Nat.zero_le _) (le_refl _) (by omega) (by intro j hj hjl; omega)
  exact ⟨h.2.1, h.2.2.1, fun j hj hjl => le_of_not_lt (h.2.2.2 j hj hjl)⟩

theorem spLookup_eq_zero (l : List (Int × Nat)) (p : Int) (h : ¬ hasPx l p) :
    spLookup l p = 0 := by
  induction l with
  | nil => rfl
  | cons e l ih =>
    rw [spLookup]
    split_ifs with hep
    · exact absurd ⟨e.2, by rw [← hep]; exact List.mem_cons_self e l⟩ h
    · exact ih fun ⟨q, hq⟩ => h ⟨q, List.mem_cons_of_mem e hq⟩

theorem hasPx_of_spLookup_ne (l : List (Int × Nat)) (p : Int)
    (h : spLookup l p ≠ 0) : hasPx l p := by
  by_contra hc
  exact h (spLookup_eq_zero l p hc)

theorem spLookup_of_mem (l : List (Int × Nat)) (p : Int) (q : Nat)
    (hs : SortedS l) (hm : (p, q) ∈ l) : spLookup l p = q := by
  induction l with
  | nil => simp at hm
  | cons e l ih =>
    rw [spLookup]
    rcases List.mem_cons.1 hm with he | he
    · rw [← he]
      simp
    · split_ifs with hep
      · exfalso
        have := (List.pairwise_cons.1 hs).1 (p, q) he
        simp only [hep] at this
        exact lt_irrefl p this
      · exact ih (List.Pairwise.of_cons hs) he

theorem mem_of_spLookup_ne (l : List (Int × Nat)) (p : Int)
    (h : spLookup l p ≠ 0) : (p, spLookup l p) ∈ l := by
  induction l with
  | nil => exact absurd rfl h
  | cons e l ih =>
    rw [spLookup] at h ⊢
    split_ifs at h ⊢ with hep
    · rw [← hep]
      exact List.mem_cons_self e l
    · exact List.mem_cons_of_mem e (ih h)

theorem spLookup_append_not_left (l1 l2 : List (Int × Nat)) (p : Int)
    (h : ¬ hasPx l1 p) : spLookup (l1 ++ l2) p = spLookup l2 p := by
  induction l1 with
  | nil => rfl
  | cons e l1 ih =>
    rw [List.cons_append, spLookup]
    split_ifs with hep
    · exact absurd ⟨e.2, by rw [← hep]; exact List.mem_cons_self e l1⟩ h
    · exact ih fun ⟨q, hq⟩ => h ⟨q, List.mem_cons_of_mem e hq⟩

theorem spLookup_append_left (l1 l2 : List (Int × Nat)) (p : Int)
    (h : hasPx l1 p) : spLookup (l1 ++ l2) p = spLookup l1 p := by
  induction l1 with
  | nil => exact absurd h (by rintro ⟨q, hq⟩; simp at hq)
  | cons e l1 ih =>
    rw [List.cons_append, spLookup, spLookup]
    split_ifs with hep
    · rfl
    · refine ih ?_
      obtain ⟨q, hq⟩ := h
      rcases List.mem_cons.1 hq with he | he
      · exact absurd (by rw [← he]) hep
      · exact ⟨q, he⟩

theorem sortedS_take (l : List (Int × Nat)) (n : Nat) (hs : SortedS l) :
    SortedS (l.take n) := hs.sublist (List.take_sublist n l)

theorem sortedS_drop (l : List (Int × Nat)) (n : Nat) (hs : SortedS l) :
    SortedS (l.drop n) := hs.sublist (List.drop_sublist n l)

theorem mem_take_lb_key_lt (s : SideD) (px : Int) (hs : SortedS s.entries) :
    ∀ e ∈ s.entries.take (s.lb px), e.1 < px := by
  intro e he
  rw [List.mem_take_iff_getElem] at he
  obtain ⟨i, hi, hie⟩ := he
  have hilen : i < s.entries.length := lt_of_lt_of_le (lt_min_iff.1 hi).2 (le_refl _)
  have := (lb_spec s px hs).2.1 i (lt_min_iff.1 hi).1
  rwa [show entAt s.entries i = e from by
    simp [entAt, List.getElem?_eq_getElem hilen, hie]] at this

theorem mem_drop_lb_key_ge (s : SideD) (px : Int) (hs : SortedS s.entries) :
    ∀ e ∈ s.entries.drop (s.lb px), px ≤ e.1 := by
  intro e he
  rw [List.mem_drop_iff_getElem] at he
  obtain ⟨i, hi, hie⟩ := he
  have hilen : s.lb px + i < s.entries.length := by omega
  have := (lb_spec s px hs).2.2 (s.lb px + i) (by omega) hilen
  rwa [show entAt s.entries (s.lb px + i) = e from by
    simp [entAt, List.getElem?_eq_getElem hilen, hie]] at this

theorem insert_sorted_raw (d : List (Int × Nat)) (j : Nat) (px : Int) (q : Nat)
    (hsd : SortedS d)
    (hbefore : ∀ e ∈ d.take j, e.1 < px) (hafter : ∀ e ∈ d.drop j, px ≤ e.1)
    (habs : ¬ hasPx d px) :
    SortedS (d.take j ++ (px, q) :: d.drop j) := by
  rw [SortedS, List.pairwise_append]
  refine ⟨sortedS_take _ _ hsd, ?_, ?_⟩
  · rw [List.pairwise_cons]
    refine ⟨?_, sortedS_drop _ _ hsd⟩
    intro e he
    have hge := hafter e he
    have hne : e.1 ≠ px := by
      intro hc
      exact habs ⟨e.2, by rw [← hc]; exact List.mem_of_mem_drop he⟩
    omega
  · intro a ha b hb
    have halt := hbefore a ha
    rcases List.mem_cons.1 hb with hbe | hbe
    · rw [hbe]; exact halt
    · have := hafter b hbe
      omega

theorem insert_lookup_raw (d : List (Int × Nat)) (j : Nat) (px : Int) (q : Nat)
    (hbefore : ∀ e ∈ d.take j, e.1 < px) (p : Int) :
    spLookup (d.take j ++ (px, q) :: d.drop j) p =
      if p = px then q else spLookup d p := by
  by_cases hp : p = px
  · subst hp
    rw [if_pos rfl, spLookup_append_not_left]
    · rw [spLookup]
      simp
    · rintro ⟨q2, hq2⟩
      exact absurd rfl (ne_of_lt (hbefore (p, q2) hq2))
  · rw [if_neg hp]
    by_cases htk : hasPx (d.take j) p
    · rw [spLookup_append_left _ _ _ htk]
      conv_rhs => rw [← List.take_append_drop j d]
      rw [spLookup_append_left _ _ _ htk]
    · rw [spLookup_append_not_left _ _ _ htk]
      conv_rhs => rw [← List.take_append_drop j d]
      rw [spLookup_append_not_left _ _ _ htk, spLookup, if_neg (Ne.symm hp)]

theorem insert_length_raw (d : List (Int × Nat)) (j : Nat) (px : Int) (q : Nat)
    (hj : j ≤ d.length) :
    (d.take j ++ (px, q) :: d.drop j).length = d.length + 1 := by
  simp only [List.length_append, List.length_take, List.length_cons, List.length_drop]
  omega

theorem insert_hasPx_raw (d : List (Int × Nat)) (j : Nat) (px : Int) (q : Nat)
    (p : Int)
    (h : hasPx (d.take j ++ (px, q) :: d.drop j) p) :
    p = px ∨ hasPx d p := by
  obtain ⟨q2, hq2⟩ := h
  rw [List.mem_append, List.mem_cons] at hq2
  rcases hq2 with h1 | h1 | h1
  · exact Or.inr ⟨q2, List.mem_of_mem_take h1⟩
  · exact Or.inl (congrArg Prod.fst h1)
  · exact Or.inr ⟨q2, List.mem_of_mem_drop h1⟩

theorem not_present_of_not_hasPx (s : SideD) (px : Int) (habs : ¬ hasPx s.entries px) :
    ¬ (s.lb px < s.entries.length ∧ (s.entries[s.lb px]?.getD (0, 0)).1 = px) := by
  rintro ⟨hlt, heq⟩
  apply habs
  refine ⟨(entAt s.entries (s.lb px)).2, ?_⟩
  have hmem : entAt s.entries (s.lb px) ∈ s.entries := by
    simp only [entAt, List.getElem?_eq_getElem hlt, Option.getD_some]
    exact List.getElem_mem hlt
  have hfst : (entAt s.entries (s.lb px)).1 = px := heq
  have hpe : (px, (entAt s.entries (s.lb px)).2) = entAt s.entries (s.lb px) :=
    Prod.ext_iff.mpr ⟨hfst.symm, rfl⟩
  rw [hpe]
  exact hmem

theorem drop_one_key_gt (l : List (Int × Nat)) (hs : SortedS l) :
    ∀ e ∈ l.drop 1, (entAt l 0).1 < e.1 := by
  intro e he
  rw [List.mem_drop_iff_getElem] at he
  obtain ⟨i, hi, hie⟩ := he
  have := sorted_key_lt l hs (i := 0) (j := 1 + i) (by omega) (by omega)
  rwa [show entAt l (1 + i) = e from by
    simp [entAt, List.getElem?_eq_getElem (show 1 + i < l.length by omega), hie]] at this

theorem take_last_key_lt (l : List (Int × Nat)) (hs : SortedS l) :
    ∀ e ∈ l.take (l.length - 1), e.1 < (entAt l (l.length - 1)).1 := by
  intro e he
  rw [List.mem_take_iff_getElem] at he
  obtain ⟨i, hi, hie⟩ := he
  have hi2 : i < l.length - 1 := (lt_min_iff.1 hi).1
  have hlast : l.length - 1 < l.length := by omega
  have := sorted_key_lt l hs (i := i) (j := l.length - 1) hi2 hlast
  rwa [show entAt l i = e from by
    simp [entAt, List.getElem?_eq_getElem (show i < l.length by omega), hie]] at this

/-- C7. A push of a new price `px` with `q > 0` into a spill side that
is full at `max_cap` (`n == cap == max_cap`): when `px` is not strictly
better than the worst stored level (the smallest price at index 0 on a
bid side, the largest price at index `n - 1` on an ask side), the buffer
is unchanged and the update dropped; otherwise the worst level is
evicted, `(px, q)` is inserted, and the buffer is again sorted ascending
with exactly `max_cap` entries — stated through the price-to-qty map:
`px` now maps to `q`, the evicted worst price to nothing, every other
price to its previous quantity. -/
theorem c7_evict_at_max_cap (isBid : Bool) (s : SideD) (px : Int) (q : Nat)
    (hs : SortedS s.entries) (hn : s.entries.length = s.cap) (hc : s.cap = s.maxCap)
    (hm : 1 ≤ s.maxCap) (habs : ¬ hasPx s.entries px) (hq : q ≠ 0) :
    (¬ (if isBid then (entAt s.entries 0).1 < px
        else px < (entAt s.entries (s.entries.length - 1)).1) →
      (SideD.addPoint isBid s px q).1 = s) ∧
    ((if isBid then (entAt s.entries 0).1 < px
      else px < (entAt s.entries (s.entries.length - 1)).1) →
      SortedS (SideD.addPoint isBid s px q).1.entries ∧
      (SideD.addPoint isBid s px q).1.entries.length = s.maxCap ∧
      spLookup (SideD.addPoint isBid s px q).1.entries px = q ∧
      spLookup (SideD.addPoint isBid s px q).1.entries
        (if isBid then (entAt s.entries 0).1
         else (entAt s.entries (s.entries.length - 1)).1) = 0 ∧
      (∀ p, p ≠ px →
        p ≠ (if isBid then (entAt s.entries 0).1
             else (entAt s.entries (s.entries.length - 1)).1) →
        spLookup (SideD.addPoint isBid s px q).1.entries p = spLookup s.entries p)) := by
  have h1 : ¬ (s.entries.length = s.cap ∧ s.cap < s.maxCap) := by omega
  have hpres := not_present_of_not_hasPx s px habs
  have hlen1 : 1 ≤ s.entries.length := by omega
  cases isBid with
  | true =>
    simp only [if_true]
    by_cases hb : (entAt s.entries 0).1 < px
    · have hble : ¬ px ≤ (s.entries[0]?.getD (0, 0)).1 := not_le.mpr hb
      have haddp : (SideD.addPoint true s px q).1.entries =
          (s.entries.drop 1).take
              (SideD.lb { s with entries := s.entries.drop 1 } px) ++
            (px, q) :: (s.entries.drop 1).drop
              (SideD.lb { s with entries := s.entries.drop 1 } px) := by
        simp only [SideD.addPoint, SideD.addPointCore, if_neg h1, if_neg hpres, if_neg hq, if_pos hn,
          if_true, if_neg hble]
      have hsd : SortedS (s.entries.drop 1) := sortedS_drop _ _ hs
      have habs1 : ¬ hasPx (s.entries.drop 1) px := by
        rintro ⟨q2, hq2⟩
        exact habs ⟨q2, List.mem_of_mem_drop hq2⟩
      have hbefore : ∀ e ∈ (s.entries.drop 1).take
          (SideD.lb { s with entries := s.entries.drop 1 } px), e.1 < px :=
        mem_take_lb_key_lt { s with entries := s.entries.drop 1 } px hsd
      have hafter : ∀ e ∈ (s.entries.drop 1).drop
          (SideD.lb { s with entries := s.entries.drop 1 } px), px ≤ e.1 :=
        mem_drop_lb_key_ge { s with entries := s.entries.drop 1 } px hsd
      have hjle : SideD.lb { s with entries := s.entries.drop 1 } px ≤
          (s.entries.drop 1).length :=
        (lb_spec { s with entries := s.entries.drop 1 } px hsd).1
      have hdec : s.entries = entAt s.entries 0 :: s.entries.drop 1 := by
        have h := List.getElem_cons_drop s.entries 0 hlen1
        rw [List.drop_zero] at h
        conv_lhs => rw [← h]
        simp [entAt, List.getElem?_eq_getElem hlen1]
      have hworst1 : ¬ hasPx (s.entries.drop 1) (entAt s.entries 0).1 := by
        rintro ⟨q2, hq2⟩
        have := drop_one_key_gt s.entries hs _ hq2
        simp at this
      refine ⟨fun hc2 => absurd hb hc2, fun _ => ?_⟩
      rw [haddp]
      refine ⟨insert_sorted_raw _ _ _ _ hsd hbefore hafter habs1, ?_, ?_, ?_, ?_⟩
      · rw [insert_length_raw _ _ _ _ hjle, List.length_drop]
        omega
      · rw [insert_lookup_raw _ _ _ _ hbefore, if_pos rfl]
      · rw [insert_lookup_raw _ _ _ _ hbefore]
        rw [if_neg (by omega)]
        exact spLookup_eq_zero _ _ hworst1
      · intro p hppx hpw
        rw [insert_lookup_raw _ _ _ _ hbefore, if_neg hppx]
        conv_rhs => rw [hdec]
        rw [spLookup, if_neg (fun hc => hpw hc.symm)]
    · refine ⟨fun _ => ?_, fun hc2 => absurd hc2 hb⟩
      have hble : px ≤ (s.entries[0]?.getD (0, 0)).1 := not_lt.mp hb
      simp only [SideD.addPoint, SideD.addPointCore, if_neg h1, if_neg hpres, if_neg hq, if_pos hn,
        if_true, if_pos hble]
  | false =>
    simp only [Bool.false_eq_true, if_false]
    have hlast : s.entries.length - 1 < s.entries.length := by omega
    by_cases hb : px < (entAt s.entries (s.entries.length - 1)).1
    · have hble : ¬ (s.entries[s.entries.length - 1]?.getD (0, 0)).1 ≤ px :=
        not_le.mpr hb
      have haddp : (SideD.addPoint false s px q).1.entries =
          (s.entries.take (s.entries.length - 1)).take
              (SideD.lb { s with entries := s.entries.take (s.entries.length - 1) } px) ++
            (px, q) :: (s.entries.take (s.entries.length - 1)).drop
              (SideD.lb { s with entries := s.entries.take (s.entries.length - 1) } px) := by
        simp only [SideD.addPoint, SideD.addPointCore, if_neg h1, if_neg hpres, if_neg hq, if_pos hn,
          Bool.false_eq_true, if_false, if_neg hble]
      have hsd : SortedS (s.entries.take (s.entries.length - 1)) := sortedS_take _ _ hs
      have habs1 : ¬ hasPx (s.entries.take (s.entries.length - 1)) px := by
        rintro ⟨q2, hq2⟩
        exact habs ⟨q2, List.mem_of_mem_take hq2⟩
      have hbefore : ∀ e ∈ (s.entries.take (s.entries.length - 1)).take
          (SideD.lb { s with entries := s.entries.take (s.entries.length - 1) } px),
          e.1 < px :=
        mem_take_lb_key_lt { s with entries := s.entries.take (s.entries.length - 1) } px hsd
      have hafter : ∀ e ∈ (s.entries.take (s.entries.length - 1)).drop
          (SideD.lb { s with entries := s.entries.take (s.entries.length - 1) } px),
          px ≤ e.1 :=
        mem_drop_lb_key_ge { s with entries := s.entries.take (s.entries.length - 1) } px hsd
      have hjle : SideD.lb { s with entries := s.entries.take (s.entries.length - 1) } px ≤
          (s.entries.take (s.entries.length - 1)).length :=
        (lb_spec { s with entries := s.entries.take (s.entries.length - 1) } px hsd).1
      have hdec : s.entries =
          s.entries.take (s.entries.length - 1) ++ [entAt s.entries (s.entries.length - 1)] := by
        conv_lhs => rw [← List.take_append_drop (s.entries.length - 1) s.entries]
        congr 1
        rw [List.drop_eq_getElem_cons hlast, List.drop_eq_nil_of_le (by omega)]
        simp [entAt, List.getElem?_eq_getElem hlast]
      have hworst1 : ¬ hasPx (s.entries.take (s.entries.length - 1))
          (entAt s.entries (s.entries.length - 1)).1 := by
        rintro ⟨q2, hq2⟩
        have := take_last_key_lt s.entries hs _ hq2
        simp at this
      refine ⟨fun hc2 => absurd hb hc2, fun _ => ?_⟩
      rw [haddp]
      refine ⟨insert_sorted_raw _ _ _ _ hsd hbefore hafter habs1, ?_, ?_, ?_, ?_⟩
      · rw [insert_length_raw _ _ _ _ hjle, List.length_take]
        omega
      · rw [insert_lookup_raw _ _ _ _ hbefore, if_pos rfl]
      · rw [insert_lookup_raw _ _ _ _ hbefore]
        rw [if_neg (by omega)]
        exact spLookup_eq_zero _ _ hworst1
      · intro p hppx hpw
        rw [insert_lookup_raw _ _ _ _ hbefore, if_neg hppx]
        conv_rhs => rw [hdec]
        by_cases htk : hasPx (s.entries.take (s.entries.length - 1)) p
        · rw [spLookup_append_left _ _ _ htk]
        · rw [spLookup_append_not_left _ _ _ htk, spLookup_eq_zero _ _ htk,
            spLookup, if_neg (fun hc => hpw hc.symm)]
          rfl
    · refine ⟨fun _ => ?_, fun hc2 => absurd hc2 hb⟩
      have hble : (s.entries[s.entries.length - 1]?.getD (0, 0)).1 ≤ px := not_lt.mp hb
      simp only [SideD.addPoint, SideD.addPointCore, if_neg h1, if_neg hpres, if_neg hq, if_pos hn,
        Bool.false_eq_true, if_false, if_pos hble]

/-- Concrete full spill side for the C7 witness. -/
def c7side : SideD := { entries := [(100, 5), (110, 6)], cap := 2, maxCap := 2 }

/-- C7 witness: pushing price 105 into the full bid side evicts the
worst level 100 and inserts `(105, 9)`, keeping 110. -/
theorem c7_witness :
    SortedS (SideD.addPoint true c7side 105 9).1.entries ∧
    (SideD.addPoint true c7side 105 9).1.entries.length = c7side.maxCap ∧
    spLookup (SideD.addPoint true c7side 105 9).1.entries 105 = 9 ∧
    spLookup (SideD.addPoint true c7side 105 9).1.entries (entAt c7side.entries 0).1 = 0 ∧
    spLookup (SideD.addPoint true c7side 105 9).1.entries 110 =
      spLookup c7side.entries 110 := by
  have h := (c7_evict_at_max_cap true c7side 105 9 (by decide) (by decide) (by decide)
    (by decide) (by rintro ⟨q, hq⟩; simp [c7side] at hq) (by decide)).2 (by decide)
  exact ⟨h.1, h.2.1, h.2.2.1, h.2.2.2.1, h.2.2.2.2 110 (by decide) (by decide)⟩

/-- A `Promote` result leaves the tape untouched and pushes nothing. -/
theorem setQty_promote_proj (N : Nat) (t : Tape) (px : Int) (q : Nat)
    (h : (Tape.setQty N t px q).1 = UpdateResult.Promote) :
    (Tape.setQty N t px q).2 = (t, []) := by
  simp only [Tape.setQty] at h ⊢
  split_ifs at h ⊢ <;> simp_all

/-- An out-of-window non-promoting call with `q ≠ 0` spills: the tape is
untouched and the single push is `(px, q)`. -/
theorem setQty_outwindow_spill (N : Nat) (t : Tape) (px : Int) (q : Nat)
    (hout : ¬ (0 ≤ px - t.anchor ∧ px - t.anchor < (N : Int))) (hq : q ≠ 0)
    (hnp : (Tape.setQty N t px q).1 ≠ UpdateResult.Promote) :
    (Tape.setQty N t px q).2 = (t, [(px, q)]) := by
  have hidx : t.idxFromPrice N px = -1 := by
    simp only [Tape.idxFromPrice, if_neg hout]
  simp only [Tape.setQty, hidx] at hnp ⊢
  rw [if_pos (by omega)] at hnp ⊢
  rw [if_neg hq] at hnp ⊢
  split_ifs at hnp ⊢ <;> simp_all

/-- In-window effect of `set_qty` on the cells: the addressed cell holds
`q` afterwards, every other cell is untouched, nothing is pushed, the
anchor and the length are preserved (this covers all four in-window
branches, including the zero-on-zero no-op whose cell already holds
`q = 0`). -/
theorem setQty_inwindow_cells (N : Nat) (t : Tape) (px : Int) (q : Nat)
    (hin : 0 ≤ px - t.anchor ∧ px - t.anchor < (N : Int))
    (hlen : t.qty.length = N) :
    (Tape.setQty N t px q).2.2 = [] ∧
    (Tape.setQty N t px q).2.1.qty.length = N ∧
    (Tape.setQty N t px q).2.1.anchor = t.anchor ∧
    ∀ j, j < N →
      (Tape.setQty N t px q).2.1.qtyAt j =
        if (j : Int) = px - t.anchor then q else t.qtyAt j := by
  have hidx : t.idxFromPrice N px = px - t.anchor := by
    simp only [Tape.idxFromPrice, if_pos hin]
  have hidxlt : (px - t.anchor).toNat < N := by omega
  simp only [Tape.setQty, hidx]
  rw [if_neg (by omega)]
  by_cases hq0 : q = 0
  · subst hq0
    by_cases hc0 : t.qtyAt (px - t.anchor).toNat = 0
    · rw [if_pos ⟨rfl, hc0⟩]
      refine ⟨rfl, hlen, rfl, ?_⟩
      intro j hj
      by_cases hji : (j : Int) = px - t.anchor
      · rw [if_pos hji]
        have : j = (px - t.anchor).toNat := by omega
        rw [this]; exact hc0
      · rw [if_neg hji]
    · rw [if_neg (by simp [hc0])]
      rw [if_pos rfl]
      have hset : ∀ t2 : Tape, t2.qty = t.qty.set (px - t.anchor).toNat 0 →
          t2.qty.length = N ∧
          ∀ j, j < N → t2.qtyAt j =
            if (j : Int) = px - t.anchor then 0 else t.qtyAt j := by
        intro t2 ht2
        constructor
        · rw [ht2, List.length_set, hlen]
        · intro j hj
          simp only [Tape.qtyAt, ht2, List.getElem?_set, hlen]
          by_cases hji : (j : Int) = px - t.anchor
          · have : (px - t.anchor).toNat = j := by omega
            rw [if_pos this, if_pos hji, if_pos (by omega)]
            rfl
          · rw [if_neg (by omega), if_neg hji]
      split_ifs <;> exact ⟨rfl, (hset _ rfl).1, rfl, (hset _ rfl).2⟩
  · rw [if_neg (by simp [hq0]), if_neg hq0]
    have hset : ∀ t2 : Tape, t2.qty = t.qty.set (px - t.anchor).toNat q →
        t2.qty.length = N ∧
        ∀ j, j < N → t2.qtyAt j =
          if (j : Int) = px - t.anchor then q else t.qtyAt j := by
      intro t2 ht2
      constructor
      · rw [ht2, List.length_set, hlen]
      · intro j hj
        simp only [Tape.qtyAt, ht2, List.getElem?_set, hlen]
        by_cases hji : (j : Int) = px - t.anchor
        · have : (px - t.anchor).toNat = j := by omega
          rw [if_pos this, if_pos hji, if_pos (by omega)]
          rfl
        · rw [if_neg (by omega), if_neg hji]
    split_ifs <;> exact ⟨rfl, (hset _ rfl).1, rfl, (hset _ rfl).2⟩

theorem take_idx_key_lt (l : List (Int × Nat)) (hs : SortedS l) (i : Nat)
    (hi : i < l.length) : ∀ e ∈ l.take i, e.1 < (entAt l i).1 := by
  intro e he
  rw [List.mem_take_iff_getElem] at he
  obtain ⟨j, hj, hje⟩ := he
  have hj2 : j < i := (lt_min_iff.1 hj).1
  have := sorted_key_lt l hs (i := j) (j := i) hj2 hi
  rwa [show entAt l j = e from by
    simp [entAt, List.getElem?_eq_getElem (show j < l.length by omega), hje]] at this

theorem drop_succ_key_gt (l : List (Int × Nat)) (hs : SortedS l) (i : Nat)
    (hi : i < l.length) : ∀ e ∈ l.drop (i + 1), (entAt l i).1 < e.1 := by
  intro e he
  rw [List.mem_drop_iff_getElem] at he
  obtain ⟨j, hj, hje⟩ := he
  have := sorted_key_lt l hs (i := i) (j := i + 1 + j) (by omega) (by omega)
  rwa [show entAt l (i + 1 + j) = e from by
    simp [entAt, List.getElem?_eq_getElem (show i + 1 + j < l.length by omega), hje]] at this

/-- On a sorted side, a stored price is found by the binary search: the
present-check of `add_point` succeeds. -/
theorem present_of_hasPx (s : SideD) (px : Int) (hs : SortedS s.entries)
    (h : hasPx s.entries px) :
    s.lb px < s.entries.length ∧ (s.entries[s.lb px]?.getD (0, 0)).1 = px := by
  obtain ⟨q2, hmem⟩ := h
  obtain ⟨j, hj, hje⟩ := List.getElem_of_mem hmem
  have hkeyj : (entAt s.entries j).1 = px := by
    simp [entAt, List.getElem?_eq_getElem hj, hje]
  have hjge : s.lb px ≤ j := by
    by_contra hc
    have := (lb_spec s px hs).2.1 j (by omega)
    omega
  have hlbn : s.lb px < s.entries.length := by omega
  refine ⟨hlbn, ?_⟩
  have h1 : px ≤ (entAt s.entries (s.lb px)).1 :=
    (lb_spec s px hs).2.2 _ (le_refl _) hlbn
  have h2 : (entAt s.entries (s.lb px)).1 ≤ px := by
    rcases Nat.eq_or_lt_of_le hjge with he | hlt
    · rw [he, hkeyj]
    · have := sorted_key_lt s.entries hs (i := s.lb px) (j := j) hlt hj
      omega
  show (entAt s.entries (s.lb px)).1 = px
  omega

theorem set_eq_take_cons_drop {α : Type} (l : List α) (i : Nat) (v : α)
    (h : i < l.length) :
    l.set i v = l.take i ++ v :: l.drop (i + 1) := by
  induction l generalizing i with
  | nil => simp at h
  | cons a l ih =>
    cases i with
    | zero => simp
    | succ i =>
      simp only [List.set_cons_succ, List.take_succ_cons, List.drop_succ_cons,
        List.cons_append, List.cons.injEq, true_and]
      exact ih i (by simpa using h)

theorem glue_sorted_raw (l1 l2 : List (Int × Nat)) (px : Int) (q : Nat)
    (hs1 : SortedS l1) (hs2 : SortedS l2)
    (h1 : ∀ e ∈ l1, e.1 < px) (h2 : ∀ e ∈ l2, px < e.1) :
    SortedS (l1 ++ (px, q) :: l2) := by
  rw [SortedS, List.pairwise_append]
  refine ⟨hs1, ?_, ?_⟩
  · rw [List.pairwise_cons]
    exact ⟨h2, hs2⟩
  · intro a ha b hb
    rcases List.mem_cons.1 hb with hbe | hbe
    · rw [hbe]; exact h1 a ha
    · have := h2 b hbe
      have := h1 a ha
      omega

theorem glue_lookup_set (l1 l2 : List (Int × Nat)) (px : Int) (q q0 : Nat)
    (h1 : ∀ e ∈ l1, e.1 < px) (p : Int) :
    spLookup (l1 ++ (px, q) :: l2) p =
      if p = px then q else spLookup (l1 ++ (px, q0) :: l2) p := by
  by_cases hp : p = px
  · subst hp
    rw [if_pos rfl, spLookup_append_not_left _ _ _
      (fun ⟨q2, hq2⟩ => absurd rfl (ne_of_lt (h1 (p, q2) hq2))), spLookup]
    simp
  · rw [if_neg hp]
    by_cases htk : hasPx l1 p
    · rw [spLookup_append_left _ _ _ htk, spLookup_append_left _ _ _ htk]
    · rw [spLookup_append_not_left _ _ _ htk, spLookup_append_not_left _ _ _ htk,
        spLookup, spLookup, if_neg (Ne.symm hp), if_neg (Ne.symm hp)]

theorem glue_lookup_remove (l1 l2 : List (Int × Nat)) (px : Int) (q0 : Nat)
    (h1 : ∀ e ∈ l1, e.1 < px) (h2 : ∀ e ∈ l2, px < e.1) (p : Int) :
    spLookup (l1 ++ l2) p =
      if p = px then 0 else spLookup (l1 ++ (px, q0) :: l2) p := by
  by_cases hp : p = px
  · subst hp
    rw [if_pos rfl, spLookup_append_not_left _ _ _
      (fun ⟨q2, hq2⟩ => absurd rfl (ne_of_lt (h1 (p, q2) hq2)))]
    exact spLookup_eq_zero _ _
      (fun ⟨q2, hq2⟩ => absurd rfl (ne_of_gt (h2 (p, q2) hq2)))
  · rw [if_neg hp]
    by_cases htk : hasPx l1 p
    · rw [spLookup_append_left _ _ _ htk, spLookup_append_left _ _ _ htk]
    · rw [spLookup_append_not_left _ _ _ htk, spLookup_append_not_left _ _ _ htk,
        spLookup, if_neg (Ne.symm hp)]

/-- Effect of the `add_point` body when it does not enter the
full-buffer branch (flag false): the stored map gains `px ↦ q` (erasing
on `q = 0`) and nothing else changes; sortedness is preserved and no new
price other than `px` appears. -/
theorem addPointCore_noevict (isBid : Bool) (s : SideD) (px : Int) (q : Nat)
    (hs : SortedS s.entries)
    (hfl : (SideD.addPointCore isBid s px q).2 = false) :
    SortedS (SideD.addPointCore isBid s px q).1.entries ∧
    (∀ p, spLookup (SideD.addPointCore isBid s px q).1.entries p =
      if p = px then q else spLookup s.entries p) ∧
    (∀ p, hasPx (SideD.addPointCore isBid s px q).1.entries p →
      p = px ∨ hasPx s.entries p) := by
  by_cases hpres : s.lb px < s.entries.length ∧
      (s.entries[s.lb px]?.getD (0, 0)).1 = px
  · have hkey : (entAt s.entries (s.lb px)).1 = px := hpres.2
    have hdecomp : s.entries = s.entries.take (s.lb px) ++
        entAt s.entries (s.lb px) :: s.entries.drop (s.lb px + 1) := by
      conv_lhs => rw [← List.take_append_drop (s.lb px) s.entries]
      congr 1
      rw [List.drop_eq_getElem_cons hpres.1]
      congr 1
      simp [entAt, List.getElem?_eq_getElem hpres.1]
    have htklt : ∀ e ∈ s.entries.take (s.lb px), e.1 < px := by
      intro e he
      have := take_idx_key_lt s.entries hs (s.lb px) hpres.1 e he
      omega
    have hdrgt : ∀ e ∈ s.entries.drop (s.lb px + 1), px < e.1 := by
      intro e he
      have := drop_succ_key_gt s.entries hs (s.lb px) hpres.1 e he
      omega
    by_cases hq0 : q = 0
    · have hres : (SideD.addPointCore isBid s px q).1.entries =
          s.entries.take (s.lb px) ++ s.entries.drop (s.lb px + 1) := by
        simp only [SideD.addPointCore, if_pos hpres, if_pos hq0]
      rw [hres]
      refine ⟨?_, ?_, ?_⟩
      · apply hs.sublist
        conv_rhs => rw [hdecomp]
        exact List.Sublist.append_left (List.sublist_cons_self _ _) _
      · intro p
        rw [hq0]
        conv_rhs => rw [hdecomp]
        rw [show entAt s.entries (s.lb px) =
          (px, (entAt s.entries (s.lb px)).2) from Prod.ext_iff.mpr ⟨hkey, rfl⟩]
        exact glue_lookup_remove _ _ px _ htklt hdrgt p
      · intro p ⟨q2, hq2⟩
        rw [List.mem_append] at hq2
        rcases hq2 with h1 | h1
        · exact Or.inr ⟨q2, List.mem_of_mem_take h1⟩
        · exact Or.inr ⟨q2, List.mem_of_mem_drop h1⟩
    · have hres : (SideD.addPointCore isBid s px q).1.entries =
          s.entries.set (s.lb px) (px, q) := by
        simp only [SideD.addPointCore, if_pos hpres, if_neg hq0]
      rw [hres, set_eq_take_cons_drop _ _ _ hpres.1]
      refine ⟨?_, ?_, ?_⟩
      · exact glue_sorted_raw _ _ px q (sortedS_take _ _ hs)
          (sortedS_drop _ _ hs) htklt hdrgt
      · intro p
        conv_rhs => rw [hdecomp]
        rw [show entAt s.entries (s.lb px) =
          (px, (entAt s.entries (s.lb px)).2) from Prod.ext_iff.mpr ⟨hkey, rfl⟩]
        exact glue_lookup_set _ _ px q _ htklt p
      · intro p ⟨q2, hq2⟩
        rw [List.mem_append, List.mem_cons] at hq2
        rcases hq2 with h1 | h1 | h1
        · exact Or.inr ⟨q2, List.mem_of_mem_take h1⟩
        · exact Or.inl (congrArg Prod.fst h1)
        · exact Or.inr ⟨q2, List.mem_of_mem_drop h1⟩
  · have habs : ¬ hasPx s.entries px := fun h => hpres (present_of_hasPx s px hs h)
    by_cases hq0 : q = 0
    · have hres : (SideD.addPointCore isBid s px q).1.entries = s.entries := by
        simp only [SideD.addPointCore, if_neg hpres, if_pos hq0]
      rw [hres]
      refine ⟨hs, ?_, fun p h => Or.inr h⟩
      intro p
      by_cases hp : p = px
      · rw [if_pos hp, hq0, hp]
        exact spLookup_eq_zero _ _ habs
      · rw [if_neg hp]
    · by_cases hncap : s.entries.length = s.cap
      · exfalso
        revert hfl
        simp only [SideD.addPointCore, if_neg hpres, if_neg hq0, if_pos hncap]
        split_ifs <;> simp
      · have hres : (SideD.addPointCore isBid s px q).1.entries =
            s.entries.take (s.lb px) ++ (px, q) :: s.entries.drop (s.lb px) := by
          simp only [SideD.addPointCore, if_neg hpres, if_neg hq0, if_neg hncap]
        rw [hres]
        exact ⟨insert_sorted_raw _ _ _ _ hs (mem_take_lb_key_lt s px hs)
            (mem_drop_lb_key_ge s px hs) habs,
          insert_lookup_raw _ _ _ _ (mem_take_lb_key_lt s px hs),
          fun p h => insert_hasPx_raw _ _ _ _ p h⟩

/-- `add_point` with a false flag, lifted over the growth step. -/
theorem addPoint_noevict (isBid : Bool) (s : SideD) (px : Int) (q : Nat)
    (hs : SortedS s.entries)
    (hfl : (SideD.addPoint isBid s px q).2 = false) :
    SortedS (SideD.addPoint isBid s px q).1.entries ∧
    (∀ p, spLookup (SideD.addPoint isBid s px q).1.entries p =
      if p = px then q else spLookup s.entries p) ∧
    (∀ p, hasPx (SideD.addPoint isBid s px q).1.entries p →
      p = px ∨ hasPx s.entries p) := by
  unfold SideD.addPoint at hfl ⊢
  by_cases hcap : (s.entries.length = s.cap ∧ s.cap < s.maxCap)
  · rw [if_pos hcap] at hfl ⊢
    have h := addPointCore_noevict isBid s.ensureCap px q
      (by rw [ensureCap_entries]; exact hs) hfl
    rwa [ensureCap_entries] at h
  · rw [if_neg hcap] at hfl ⊢
    exact addPointCore_noevict isBid s px q hs hfl

theorem applyPushes_acc (isBid : Bool) (ps : List (Int × Nat)) :
    ∀ (sp : SideD) (b : Bool),
      ps.foldl (fun acc e =>
        let r := SideD.addPoint isBid acc.1 e.1 e.2
        (r.1, acc.2 || r.2)) (sp, b) =
      ((applyPushes isBid sp ps).1, b || (applyPushes isBid sp ps).2) := by
  induction ps with
  | nil => intro sp b; simp [applyPushes]
  | cons e ps ih =>
    intro sp b
    simp only [applyPushes, List.foldl_cons] at ih ⊢
    rw [ih _ (b || (SideD.addPoint isBid sp e.1 e.2).2),
      ih _ (false || (SideD.addPoint isBid sp e.1 e.2).2)]
    simp [Bool.or_assoc]

theorem applyPushes_cons (isBid : Bool) (sp : SideD) (e : Int × Nat)
    (ps : List (Int × Nat)) :
    applyPushes isBid sp (e :: ps) =
      ((applyPushes isBid (SideD.addPoint isBid sp e.1 e.2).1 ps).1,
       (SideD.addPoint isBid sp e.1 e.2).2 ||
         (applyPushes isBid (SideD.addPoint isBid sp e.1 e.2).1 ps).2) := by
  show List.foldl (fun acc e2 =>
      let r := SideD.addPoint isBid acc.1 e2.1 e2.2
      (r.1, acc.2 || r.2))
    ((SideD.addPoint isBid sp e.1 e.2).1, (SideD.addPoint isBid sp e.1 e.2).2) ps = _
  rw [applyPushes_acc]

/-- Folding a strictly-ascending list of non-zero pushes into a sorted
spill side with no full-buffer event: sortedness is preserved, the map
becomes "the pushed value where pushed, the old value elsewhere", and
the stored prices stay within old-or-pushed. -/
theorem applyPushes_spec (isBid : Bool) (ps : List (Int × Nat)) :
    ∀ (sp : SideD), SortedS sp.entries → SortedS ps →
      (applyPushes isBid sp ps).2 = false →
      SortedS (applyPushes isBid sp ps).1.entries ∧
      (∀ p, hasPx ps p →
        spLookup (applyPushes isBid sp ps).1.entries p = spLookup ps p) ∧
      (∀ p, ¬ hasPx ps p →
        spLookup (applyPushes isBid sp ps).1.entries p = spLookup sp.entries p) ∧
      (∀ p, hasPx (applyPushes isBid sp ps).1.entries p →
        hasPx sp.entries p ∨ hasPx ps p) := by
  induction ps with
  | nil =>
    intro sp hsp _ _
    refine ⟨hsp, ?_, fun p _ => rfl, fun p h => Or.inl h⟩
    rintro p ⟨q, hq⟩
    simp at hq
  | cons e ps ih =>
    intro sp hsp hps hfl
    have hc := applyPushes_cons isBid sp e ps
    have hc1 : (applyPushes isBid sp (e :: ps)).1 =
        (applyPushes isBid (SideD.addPoint isBid sp e.1 e.2).1 ps).1 := by
      rw [hc]
    have hc2 : (applyPushes isBid sp (e :: ps)).2 =
        ((SideD.addPoint isBid sp e.1 e.2).2 ||
          (applyPushes isBid (SideD.addPoint isBid sp e.1 e.2).1 ps).2) := by
      rw [hc]
    rw [hc2] at hfl
    have hfe : (SideD.addPoint isBid sp e.1 e.2).2 = false := by
      cases h : (SideD.addPoint isBid sp e.1 e.2).2 <;> simp [h] at hfl ⊢
    have hfr : (applyPushes isBid (SideD.addPoint isBid sp e.1 e.2).1 ps).2 = false := by
      rw [hfe] at hfl
      simpa using hfl
    obtain ⟨ha1, ha2, ha3⟩ := addPoint_noevict isBid sp e.1 e.2 hsp hfe
    have hpstail : SortedS ps := List.Pairwise.of_cons hps
    have hehead : ∀ b ∈ ps, e.1 < b.1 := fun b hb => (List.pairwise_cons.1 hps).1 b hb
    obtain ⟨hb1, hb2, hb3, hb4⟩ :=
      ih (SideD.addPoint isBid sp e.1 e.2).1 ha1 hpstail hfr
    rw [hc1]
    refine ⟨hb1, ?_, ?_, ?_⟩
    · intro p hp
      obtain ⟨qp, hqp⟩ := hp
      rcases List.mem_cons.1 hqp with h1 | h1
    -- p is the head push or a tail push
      · have hpe : p = e.1 := congrArg Prod.fst h1
        by_cases hpt : hasPx ps p
        · obtain ⟨q2, hq2⟩ := hpt
          have : e.1 < p := hehead (p, q2) hq2
          omega
        · rw [hb3 p hpt, ha2 p, if_pos hpe, spLookup]
          rw [show e = (p, qp) from h1.symm]
          simp
      · have hpt : hasPx ps p := ⟨qp, h1⟩
        rw [hb2 p hpt, spLookup]
        have hne : ¬ e.1 = p := by
          have := hehead (p, qp) h1
          omega
        rw [if_neg hne]
    · intro p hp
      have hpt : ¬ hasPx ps p := fun ⟨q2, hq2⟩ => hp ⟨q2, List.mem_cons_of_mem e hq2⟩
      have hpe : p ≠ e.1 := by
        intro hc
        exact hp ⟨e.2, by rw [hc]; exact List.mem_cons_self e ps⟩
      rw [hb3 p hpt, ha2 p, if_neg hpe]
    · intro p hp
      rcases hb4 p hp with h1 | h1
      · rcases ha3 p h1 with h2 | h2
        · exact Or.inr ⟨e.2, by rw [h2]; exact List.mem_cons_self e ps⟩
        · exact Or.inl h2
      · obtain ⟨q2, hq2⟩ := h1
        exact Or.inr ⟨q2, List.mem_cons_of_mem e hq2⟩

theorem drop_length_takeWhile {α : Type} (p : α → Bool) (l : List α) :
    l.drop (l.takeWhile p).length = l.dropWhile p := by
  induction l with
  | nil => rfl
  | cons a l ih =>
    by_cases hp : p a
    · simp [List.takeWhile_cons, List.dropWhile_cons, hp, ih]
    · simp [List.takeWhile_cons, List.dropWhile_cons, hp]

theorem sorted_dropWhile_le_gt (hi : Int) (l : List (Int × Nat)) (hs : SortedS l) :
    ∀ e ∈ l.dropWhile (fun e => decide (e.1 ≤ hi)), hi < e.1 := by
  induction l with
  | nil => intro e he; simp at he
  | cons a l ih =>
    intro e he
    by_cases hp : a.1 ≤ hi
    · rw [List.dropWhile_cons_of_pos (by simpa using hp)] at he
      exact ih (List.Pairwise.of_cons hs) e he
    · rw [List.dropWhile_cons_of_neg (by simpa using hp)] at he
      rcases List.mem_cons.1 he with h1 | h1
      · have : e.1 = a.1 := by rw [h1]
        omega
      · have := (List.pairwise_cons.1 hs).1 e h1
        omega

/-- Characterization of `drain_range` on a sorted side: the scanned
range `[lo, hi]` is removed wholesale; the visitor sees exactly the
non-zero entries of that range, in ascending order. -/
theorem drainRange_spec (sp : SideD) (lo hi : Int) (hs : SortedS sp.entries) :
    SortedS (sp.drainRange lo hi).2.entries ∧
    (∀ p, spLookup (sp.drainRange lo hi).2.entries p =
      if lo ≤ p ∧ p ≤ hi then 0 else spLookup sp.entries p) ∧
    SortedS (sp.drainRange lo hi).1 ∧
    (∀ e ∈ (sp.drainRange lo hi).1,
      lo ≤ e.1 ∧ e.1 ≤ hi ∧ e.2 ≠ 0 ∧ spLookup sp.entries e.1 = e.2) ∧
    (∀ p, lo ≤ p → p ≤ hi → spLookup sp.entries p ≠ 0 →
      (p, spLookup sp.entries p) ∈ (sp.drainRange lo hi).1) := by
  by_cases hlen : sp.entries.length = 0
  · have hnil : sp.entries = [] := List.length_eq_zero.mp hlen
    have hdr : sp.drainRange lo hi = ([], sp) := by
      simp only [SideD.drainRange, if_pos hlen]
    rw [hdr]
    refine ⟨hs, ?_, List.Pairwise.nil, ?_, ?_⟩
    · intro p
      rw [hnil]
      simp [spLookup]
    · intro e he; simp at he
    · intro p _ _ hne
      rw [hnil] at hne
      exact absurd rfl hne
  · have hdr1 : (sp.drainRange lo hi).1 =
        ((sp.entries.drop (sp.lb lo)).takeWhile fun e => decide (e.1 ≤ hi)).filter
          fun e => decide (e.2 ≠ 0) := by
      simp only [SideD.drainRange, if_neg hlen]
    have hdr2 : (sp.drainRange lo hi).2.entries =
        sp.entries.take (sp.lb lo) ++
          (sp.entries.drop (sp.lb lo)).drop
            ((sp.entries.drop (sp.lb lo)).takeWhile fun e => decide (e.1 ≤ hi)).length := by
      simp only [SideD.drainRange, if_neg hlen]
    rw [hdr1, hdr2, drop_length_takeWhile]
    have hrest : SortedS (sp.entries.drop (sp.lb lo)) := sortedS_drop _ _ hs
    have hdecomp : sp.entries = sp.entries.take (sp.lb lo) ++
        ((sp.entries.drop (sp.lb lo)).takeWhile fun e => decide (e.1 ≤ hi)) ++
        ((sp.entries.drop (sp.lb lo)).dropWhile fun e => decide (e.1 ≤ hi)) := by
      rw [List.append_assoc, List.takeWhile_append_dropWhile, List.take_append_drop]
    have htake_lt : ∀ e ∈ sp.entries.take (sp.lb lo), e.1 < lo :=
      mem_take_lb_key_lt sp lo hs
    have hseg : ∀ e ∈ ((sp.entries.drop (sp.lb lo)).takeWhile
        fun e => decide (e.1 ≤ hi)), lo ≤ e.1 ∧ e.1 ≤ hi := by
      intro e he
      constructor
      · exact mem_drop_lb_key_ge sp lo hs e (List.takeWhile_subset _ he)
      · have := List.mem_takeWhile_imp he
        simpa using this
    have hrem : ∀ e ∈ ((sp.entries.drop (sp.lb lo)).dropWhile
        fun e => decide (e.1 ≤ hi)), hi < e.1 :=
      sorted_dropWhile_le_gt hi _ hrest
    have hsub2 : (sp.entries.take (sp.lb lo) ++
        ((sp.entries.drop (sp.lb lo)).dropWhile fun e => decide (e.1 ≤ hi))).Sublist
        sp.entries := by
      conv_rhs => rw [hdecomp, List.append_assoc]
      exact List.Sublist.append_left (List.sublist_append_right _ _) _
    refine ⟨hs.sublist hsub2, ?_, ?_, ?_, ?_⟩
    · intro p
      by_cases hp : lo ≤ p ∧ p ≤ hi
      · rw [if_pos hp]
        apply spLookup_eq_zero
        rintro ⟨q2, hq2⟩
        rw [List.mem_append] at hq2
        rcases hq2 with h1 | h1
        · have := htake_lt (p, q2) h1
          omega
        · have := hrem (p, q2) h1
          omega
      · rw [if_neg hp]
        by_cases htk : hasPx (sp.entries.take (sp.lb lo)) p
        · rw [spLookup_append_left _ _ _ htk]
          conv_rhs => rw [hdecomp, List.append_assoc]
          rw [spLookup_append_left _ _ _ htk]
        · rw [spLookup_append_not_left _ _ _ htk]
          conv_rhs => rw [hdecomp, List.append_assoc]
          rw [spLookup_append_not_left _ _ _ htk,
            spLookup_append_not_left _ _ _ ?hseg]
          case hseg =>
            rintro ⟨q2, hq2⟩
            have := hseg (p, q2) hq2
            omega
    · exact (hrest.sublist (List.takeWhile_sublist _)).sublist
        (List.filter_sublist _)
    · intro e he
      have hseg2 := List.mem_of_mem_filter he
      have hq2 : e.2 ≠ 0 := by
        have := List.of_mem_filter he
        simpa using this
      obtain ⟨hlo2, hhi2⟩ := hseg (by exact e) hseg2
      refine ⟨hlo2, hhi2, hq2, ?_⟩
      apply spLookup_of_mem _ _ _ hs
      rw [show (e.1, e.2) = e from rfl]
      exact List.mem_of_mem_drop (List.takeWhile_subset _ hseg2)
    · intro p hlo2 hhi2 hne
      have hmem := mem_of_spLookup_ne sp.entries p hne
      rw [List.mem_filter]
      set v := spLookup sp.entries p with hv
      refine ⟨?_, by simpa using hne⟩
      conv at hmem => rw [hdecomp]
      rw [List.mem_append, List.mem_append] at hmem
      rcases hmem with (h1 | h1) | h1
      · have := htake_lt _ h1
        simp at this
        omega
      · exact h1
      · have := hrem _ h1
        simp at this
        omega

/-- Under a valid anchor, `price_from_idx` does not wrap: the window
prices are representable. -/
theorem priceFromIdx_eq (N : Nat) (t : Tape) (hav : anchorValid N t.anchor)
    (j : Nat) (hj : j < N) :
    t.priceFromIdx (j : Int) = t.anchor + (j : Int) := by
  have hj2 : (j : Int) < (N : Int) := by exact_mod_cast hj
  have hj0 : (0 : Int) ≤ (j : Int) := Int.natCast_nonneg j
  obtain ⟨h1, h2⟩ := hav
  have hmin : minPx = -2147483648 := by norm_num [minPx]
  have hmax : maxPx = 2147483647 := by norm_num [maxPx]
  unfold Tape.priceFromIdx
  apply wrapI32_eq_self
  · rw [hmin] at h1 ⊢
    omega
  · rw [hmax] at h2 ⊢
    omega

theorem forEachSetIdx_pairwise (N : Nat) (t : Tape) (L R : Int) :
    (t.forEachSetIdx N L R).Pairwise (· < ·) :=
  List.Pairwise.sublist (List.filter_sublist _) (List.pairwise_lt_range N)

/-- Characterization of `spill_one` over a bitmap range scan: the cells
in `[L, R]` are zeroed (set-bit cells explicitly, clear-bit cells were
already zero by well-formedness), the rest untouched; the pushes are
exactly the non-zero cells of the range, ascending, at their un-wrapped
window prices. -/
theorem spillCells_spec (N : Nat) (t : Tape) (L R : Int)
    (hwf : TapeWF N t) (hav : anchorValid N t.anchor) :
    (t.spillCells (t.forEachSetIdx N L R)).2.length = N ∧
    (∀ j, j < N → (((t.spillCells (t.forEachSetIdx N L R)).2)[j]?).getD 0 =
      if L ≤ (j : Int) ∧ (j : Int) ≤ R then 0 else t.qtyAt j) ∧
    SortedS (t.spillCells (t.forEachSetIdx N L R)).1 ∧
    (∀ e ∈ (t.spillCells (t.forEachSetIdx N L R)).1,
      ∃ j, j < N ∧ L ≤ (j : Int) ∧ (j : Int) ≤ R ∧ t.qtyAt j ≠ 0 ∧
        e = (t.anchor + (j : Int), t.qtyAt j)) ∧
    (∀ j, j < N → L ≤ (j : Int) → (j : Int) ≤ R → t.qtyAt j ≠ 0 →
      (t.anchor + (j : Int), t.qtyAt j) ∈ (t.spillCells (t.forEachSetIdx N L R)).1) := by
  obtain ⟨hql, hbl, hbits⟩ := hwf
  have h2 : (t.spillCells (t.forEachSetIdx N L R)).2 =
      (t.forEachSetIdx N L R).foldl (fun acc i => acc.set i 0) t.qty := rfl
  have h1 : (t.spillCells (t.forEachSetIdx N L R)).1 =
      (t.forEachSetIdx N L R).filterMap (fun i =>
        if t.qtyAt i = 0 then none
        else some (t.priceFromIdx (i : Int), t.qtyAt i)) := rfl
  refine ⟨?_, ?_, ?_, ?_, ?_⟩
  · rw [h2, foldl_set_zero_length, hql]
  · intro j hj
    rw [h2, foldl_set_zero_getElem]
    by_cases hm : j ∈ t.forEachSetIdx N L R
    · rw [if_pos hm]
      obtain ⟨_, hL, hR, _⟩ := (mem_forEachSetIdx N t L R j).1 hm
      rw [if_pos ⟨hL, hR⟩]
      have hjl : j < t.qty.length := by rw [hql]; exact hj
      rw [List.getElem?_eq_getElem hjl]
      rfl
    · rw [if_neg hm]
      by_cases hr : L ≤ (j : Int) ∧ (j : Int) ≤ R
      · rw [if_pos hr]
        have hbit : t.bitAt j = false := by
          cases hb : t.bitAt j
          · rfl
          · exact absurd ((mem_forEachSetIdx N t L R j).2 ⟨hj, hr.1, hr.2, hb⟩) hm
        have hq0 : t.qtyAt j = 0 := by
          by_contra hq
          have := (hbits j hj).2 hq
          rw [hbit] at this
          exact Bool.false_ne_true this
        exact hq0
      · rw [if_neg hr]
        rfl
  · rw [h1]
    unfold SortedS
    rw [List.pairwise_filterMap]
    refine List.Pairwise.imp_of_mem ?_ (forEachSetIdx_pairwise N t L R)
    intro a b ha hb hab e he e' he'
    obtain ⟨haN, _, _, _⟩ := (mem_forEachSetIdx N t L R a).1 ha
    obtain ⟨hbN, _, _, _⟩ := (mem_forEachSetIdx N t L R b).1 hb
    simp only [Option.mem_def] at he he'
    by_cases hqa : t.qtyAt a = 0
    · rw [if_pos hqa] at he
      exact absurd he (by simp)
    · rw [if_neg hqa] at he
      by_cases hqb : t.qtyAt b = 0
      · rw [if_pos hqb] at he'
        exact absurd he' (by simp)
      · rw [if_neg hqb] at he'
        have hea := Option.some.inj he
        have heb := Option.some.inj he'
        rw [← hea, ← heb]
        show (t.priceFromIdx (a : Int)) < (t.priceFromIdx (b : Int))
        rw [priceFromIdx_eq N t hav a haN, priceFromIdx_eq N t hav b hbN]
        have : (a : Int) < (b : Int) := by exact_mod_cast hab
        omega
  · intro e he
    rw [h1, List.mem_filterMap] at he
    obtain ⟨a, ha, hfa⟩ := he
    obtain ⟨haN, hL, hR, _⟩ := (mem_forEachSetIdx N t L R a).1 ha
    by_cases hqa : t.qtyAt a = 0
    · rw [if_pos hqa] at hfa
      exact absurd hfa (by simp)
    · rw [if_neg hqa] at hfa
      refine ⟨a, haN, hL, hR, hqa, ?_⟩
      rw [← Option.some.inj hfa, priceFromIdx_eq N t hav a haN]
  · intro j hj hL hR hq
    rw [h1, List.mem_filterMap]
    refine ⟨j, (mem_forEachSetIdx N t L R j).2 ⟨hj, hL, hR, (hbits j hj).2 hq⟩, ?_⟩
    rw [if_neg hq, priceFromIdx_eq N t hav j hj]

theorem getElem_rot (N k j : Nat) (l : List Nat) (hlen : l.length = N) (hk : k ≤ N)
    (hj : j < N) :
    ((l.drop k ++ l.take k)[j]?).getD 0 =
      if j < N - k then (l[k + j]?).getD 0 else (l[j - (N - k)]?).getD 0 := by
  by_cases h : j < N - k
  · rw [if_pos h, List.getElem?_append,
      if_pos (by rw [List.length_drop, hlen]; omega), List.getElem?_drop]
  · rw [if_neg h, List.getElem?_append,
      if_neg (by rw [List.length_drop, hlen]; omega), List.length_drop, hlen,
      List.getElem?_take_of_lt (by omega : j - (N - k) < k)]

theorem tapeWF_of_bits_map (N : Nat) (t2 : Tape) (hlen : t2.qty.length = N)
    (hb : t2.bits = t2.qty.map fun q => decide (q ≠ 0)) : TapeWF N t2 := by
  refine ⟨hlen, by rw [hb, List.length_map, hlen], ?_⟩
  intro i hi
  unfold Tape.bitAt Tape.qtyAt
  rw [hb, List.getElem?_map]
  have hil : i < t2.qty.length := by omega
  rw [List.getElem?_eq_getElem hil]
  simp

/-- Characterization of `recenter_to_anchor` on a well-formed tape with
a valid (old) anchor: the result is well-formed; cell `j` of the new
window holds the old cell at the same price when that price was in the
old window, 0 otherwise; the pushes are exactly the non-zero old cells
whose prices fall outside the new window, in ascending price order. -/
theorem recenter_spec (N : Nat) (hN : 0 < N) (t : Tape) (A : Int)
    (hwf : TapeWF N t) (hav : anchorValid N t.anchor) :
    TapeWF N (Tape.recenter N t A).1 ∧
    (∀ j : Nat, j < N →
      (Tape.recenter N t A).1.qtyAt j =
        if 0 ≤ A + (j : Int) - t.anchor ∧ A + (j : Int) - t.anchor < (N : Int)
        then t.qtyAt (A + (j : Int) - t.anchor).toNat else 0) ∧
    SortedS (Tape.recenter N t A).2 ∧
    (∀ e ∈ (Tape.recenter N t A).2,
      ∃ j : Nat, j < N ∧ t.qtyAt j ≠ 0 ∧
        e = (t.anchor + (j : Int), t.qtyAt j) ∧
        ¬ (A ≤ t.anchor + (j : Int) ∧ t.anchor + (j : Int) < A + (N : Int))) ∧
    (∀ j : Nat, j < N → t.qtyAt j ≠ 0 →
      ¬ (A ≤ t.anchor + (j : Int) ∧ t.anchor + (j : Int) < A + (N : Int)) →
      (t.anchor + (j : Int), t.qtyAt j) ∈ (Tape.recenter N t A).2) := by
  by_cases hd0 : A - t.anchor = 0
  · have hr : Tape.recenter N t A = (t, []) := by
      simp only [Tape.recenter]
      rw [if_pos hd0]
    have hr1 : (Tape.recenter N t A).1 = t := by rw [hr]
    have hr2 : (Tape.recenter N t A).2 = ([] : List (Int × Nat)) := by rw [hr]
    refine ⟨by rw [hr1]; exact hwf, ?_, by rw [hr2]; exact List.Pairwise.nil, ?_, ?_⟩
    · intro j hj
      have hjN : (j : Int) < (N : Int) := by exact_mod_cast hj
      rw [hr1, if_pos ⟨by omega, by omega⟩]
      congr 1
      omega
    · intro e he
      rw [hr2] at he
      simp at he
    · intro j hj hq hnin
      have hjN : (j : Int) < (N : Int) := by exact_mod_cast hj
      exact absurd ⟨by omega, by omega⟩ hnin
  · by_cases hful : (N : Int) ≤ A - t.anchor ∨ A - t.anchor ≤ -(N : Int)
    · obtain ⟨hslen, hscell, hssort, hsmem, hscov⟩ :=
        spillCells_spec N t 0 ((N : Int) - 1) hwf hav
      have hr1q : (Tape.recenter N t A).1.qty =
          (t.spillCells (t.forEachSetIdx N 0 ((N : Int) - 1))).2 := by
        simp only [Tape.recenter]
        rw [if_neg hd0, if_pos hful]
      have hr1b : (Tape.recenter N t A).1.bits =
          (t.spillCells (t.forEachSetIdx N 0 ((N : Int) - 1))).2.map
            (fun q => decide (q ≠ 0)) := by
        simp only [Tape.recenter]
        rw [if_neg hd0, if_pos hful]
      have hr2 : (Tape.recenter N t A).2 =
          (t.spillCells (t.forEachSetIdx N 0 ((N : Int) - 1))).1 := by
        simp only [Tape.recenter]
        rw [if_neg hd0, if_pos hful]
      refine ⟨tapeWF_of_bits_map N _ (by rw [hr1q]; exact hslen)
        (by rw [hr1b, hr1q]), ?_, by rw [hr2]; exact hssort, ?_, ?_⟩
      · intro j hj
        have hjN : (j : Int) < (N : Int) := by exact_mod_cast hj
        show (((Tape.recenter N t A).1.qty[j]?).getD 0) = _
        rw [hr1q, hscell j hj, if_pos ⟨by omega, by omega⟩, if_neg (by omega)]
      · intro e he
        rw [hr2] at he
        obtain ⟨j, hjN, _, _, hq, he2⟩ := hsmem e he
        have hjN2 : (j : Int) < (N : Int) := by exact_mod_cast hjN
        exact ⟨j, hjN, hq, he2, by omega⟩
      · intro j hj hq hnin
        have hjN : (j : Int) < (N : Int) := by exact_mod_cast hj
        rw [hr2]
        exact hscov j hj (by omega) (by omega) hq
    · by_cases hpos : 0 < A - t.anchor
      · obtain ⟨hslen, hscell, hssort, hsmem, hscov⟩ :=
          spillCells_spec N t 0 (A - t.anchor - 1) hwf hav
        have hkN : (A - t.anchor).toNat < N := by omega
        have hk0 : 0 < (A - t.anchor).toNat := by omega
        have hr1q : (Tape.recenter N t A).1.qty =
            rotLeft N (t.spillCells (t.forEachSetIdx N 0 (A - t.anchor - 1))).2
              (A - t.anchor).toNat := by
          simp only [Tape.recenter]
          rw [if_neg hd0, if_neg hful, if_pos hpos]
        have hr1b : (Tape.recenter N t A).1.bits =
            (rotLeft N (t.spillCells (t.forEachSetIdx N 0 (A - t.anchor - 1))).2
              (A - t.anchor).toNat).map (fun q => decide (q ≠ 0)) := by
          simp only [Tape.recenter]
          rw [if_neg hd0, if_neg hful, if_pos hpos]
        have hr2 : (Tape.recenter N t A).2 =
            (t.spillCells (t.forEachSetIdx N 0 (A - t.anchor - 1))).1 := by
          simp only [Tape.recenter]
          rw [if_neg hd0, if_neg hful, if_pos hpos]
        have hrot : rotLeft N (t.spillCells (t.forEachSetIdx N 0 (A - t.anchor - 1))).2
            (A - t.anchor).toNat =
            (t.spillCells (t.forEachSetIdx N 0 (A - t.anchor - 1))).2.drop
              (A - t.anchor).toNat ++
            (t.spillCells (t.forEachSetIdx N 0 (A - t.anchor - 1))).2.take
              (A - t.anchor).toNat := by
          unfold rotLeft rotRight
          rw [Nat.mod_eq_of_lt hkN, if_neg (by omega), hslen]
          have hnk : N - (N - (A - t.anchor).toNat) = (A - t.anchor).toNat := by omega
          rw [hnk]
        have hrlen : (rotLeft N (t.spillCells (t.forEachSetIdx N 0 (A - t.anchor - 1))).2
            (A - t.anchor).toNat).length = N := by
          rw [hrot, List.length_append, List.length_drop, List.length_take, hslen]
          omega
        refine ⟨tapeWF_of_bits_map N _ (by rw [hr1q]; exact hrlen)
          (by rw [hr1b, hr1q]), ?_, by rw [hr2]; exact hssort, ?_, ?_⟩
        · intro j hj
          have hjN : (j : Int) < (N : Int) := by exact_mod_cast hj
          show (((Tape.recenter N t A).1.qty[j]?).getD 0) = _
          rw [hr1q, hrot, getElem_rot N (A - t.anchor).toNat j _ hslen
            (Nat.le_of_lt hkN) hj]
          by_cases hcase : j < N - (A - t.anchor).toNat
          · rw [if_pos hcase, hscell ((A - t.anchor).toNat + j) (by omega),
              if_neg (by omega), if_pos ⟨by omega, by omega⟩]
            congr 1
            omega
          · rw [if_neg hcase, hscell (j - (N - (A - t.anchor).toNat)) (by omega),
              if_pos ⟨by omega, by omega⟩, if_neg (by omega)]
        · intro e he
          rw [hr2] at he
          obtain ⟨j, hjN, hL, hR, hq, he2⟩ := hsmem e he
          have hjN2 : (j : Int) < (N : Int) := by exact_mod_cast hjN
          exact ⟨j, hjN, hq, he2, fun hc => by omega⟩
        · intro j hj hq hnin
          have hjN : (j : Int) < (N : Int) := by exact_mod_cast hj
          have hnin2 : t.anchor + (j : Int) < A ∨
              A + (N : Int) ≤ t.anchor + (j : Int) := by
            by_contra hc
            push_neg at hc
            exact hnin ⟨hc.1, hc.2⟩
          rw [hr2]
          refine hscov j hj (by omega) ?_ hq
          rcases hnin2 with h | h
          · omega
          · omega
      · obtain ⟨hslen, hscell, hssort, hsmem, hscov⟩ :=
          spillCells_spec N t ((N : Int) - ((-(A - t.anchor)).toNat : Int))
            ((N : Int) - 1) hwf hav
        have hDAnch : (0 : Int) < -(A - t.anchor) := by omega
        have hDN : (-(A - t.anchor)).toNat < N := by omega
        have hD0 : 0 < (-(A - t.anchor)).toNat := by omega
        have hr1q : (Tape.recenter N t A).1.qty =
            rotRight (t.spillCells (t.forEachSetIdx N
              ((N : Int) - ((-(A - t.anchor)).toNat : Int)) ((N : Int) - 1))).2
              (-(A - t.anchor)).toNat := by
          simp only [Tape.recenter]
          rw [if_neg hd0, if_neg hful, if_neg hpos]
        have hr1b : (Tape.recenter N t A).1.bits =
            (rotRight (t.spillCells (t.forEachSetIdx N
              ((N : Int) - ((-(A - t.anchor)).toNat : Int)) ((N : Int) - 1))).2
              (-(A - t.anchor)).toNat).map (fun q => decide (q ≠ 0)) := by
          simp only [Tape.recenter]
          rw [if_neg hd0, if_neg hful, if_neg hpos]
        have hr2 : (Tape.recenter N t A).2 =
            (t.spillCells (t.forEachSetIdx N
              ((N : Int) - ((-(A - t.anchor)).toNat : Int)) ((N : Int) - 1))).1 := by
          simp only [Tape.recenter]
          rw [if_neg hd0, if_neg hful, if_neg hpos]
        have hrot : rotRight (t.spillCells (t.forEachSetIdx N
            ((N : Int) - ((-(A - t.anchor)).toNat : Int)) ((N : Int) - 1))).2
            (-(A - t.anchor)).toNat =
            (t.spillCells (t.forEachSetIdx N
              ((N : Int) - ((-(A - t.anchor)).toNat : Int)) ((N : Int) - 1))).2.drop
              (N - (-(A - t.anchor)).toNat) ++
            (t.spillCells (t.forEachSetIdx N
              ((N : Int) - ((-(A - t.anchor)).toNat : Int)) ((N : Int) - 1))).2.take
              (N - (-(A - t.anchor)).toNat) := by
          unfold rotRight
          rw [hslen]
        have hrlen : (rotRight (t.spillCells (t.forEachSetIdx N
            ((N : Int) - ((-(A - t.anchor)).toNat : Int)) ((N : Int) - 1))).2
            (-(A - t.anchor)).toNat).length = N := by
          rw [hrot, List.length_append, List.length_drop, List.length_take, hslen]
          omega
        refine ⟨tapeWF_of_bits_map N _ (by rw [hr1q]; exact hrlen)
          (by rw [hr1b, hr1q]), ?_, by rw [hr2]; exact hssort, ?_, ?_⟩
        · intro j hj
          have hjN : (j : Int) < (N : Int) := by exact_mod_cast hj
          show (((Tape.recenter N t A).1.qty[j]?).getD 0) = _
          rw [hr1q, hrot, getElem_rot N (N - (-(A - t.anchor)).toNat) j _ hslen
            (by omega) hj]
          by_cases hcase : j < N - (N - (-(A - t.anchor)).toNat)
          · rw [if_pos hcase,
              hscell ((N - (-(A - t.anchor)).toNat) + j) (by omega),
              if_pos ⟨by omega, by omega⟩, if_neg (by omega)]
          · rw [if_neg hcase,
              hscell (j - (N - (N - (-(A - t.anchor)).toNat))) (by omega),
              if_neg (by omega), if_pos ⟨by omega, by omega⟩]
            congr 1
            omega
        · intro e he
          rw [hr2] at he
          obtain ⟨j, hjN, hL, hR, hq, he2⟩ := hsmem e he
          have hjN2 : (j : Int) < (N : Int) := by exact_mod_cast hjN
          exact ⟨j, hjN, hq, he2, fun hc => by omega⟩
        · intro j hj hq hnin
          have hjN : (j : Int) < (N : Int) := by exact_mod_cast hj
          have hnin2 : t.anchor + (j : Int) < A ∨
              A + (N : Int) ≤ t.anchor + (j : Int) := by
            by_contra hc
            push_neg at hc
            exact hnin ⟨hc.1, hc.2⟩
          rw [hr2]
          refine hscov j hj ?_ (by omega) hq
          rcases hnin2 with h | h
          · omega
          · omega

/-- Folding a sorted list of in-window `(price, qty)` entries into the
tape through `set_qty` writes each entry to its cell and leaves the
other cells alone. -/
theorem foldl_setQty_cells (N : Nat) (vis : List (Int × Nat)) :
    ∀ (t : Tape), t.qty.length = N → SortedS vis →
    (∀ e ∈ vis, 0 ≤ e.1 - t.anchor ∧ e.1 - t.anchor < (N : Int)) →
    (vis.foldl (fun tt e => (Tape.setQty N tt e.1 e.2).2.1) t).qty.length = N ∧
    (∀ j, j < N → ∀ qv, (t.anchor + (j : Int), qv) ∈ vis →
      (vis.foldl (fun tt e => (Tape.setQty N tt e.1 e.2).2.1) t).qtyAt j = qv) ∧
    (∀ j, j < N → ¬ hasPx vis (t.anchor + (j : Int)) →
      (vis.foldl (fun tt e => (Tape.setQty N tt e.1 e.2).2.1) t).qtyAt j = t.qtyAt j) := by
  induction vis with
  | nil =>
    intro t hlen _ _
    exact ⟨hlen, fun j _ qv hqv => by simp at hqv, fun j _ _ => rfl⟩
  | cons e vis ih =>
    intro t hlen hs hin
    have hine := hin e (List.mem_cons_self e vis)
    obtain ⟨_, h1len, h1anch, h1cells⟩ :=
      setQty_inwindow_cells N t e.1 e.2 ⟨hine.1, hine.2⟩ hlen
    have hin2 : ∀ e2 ∈ vis, 0 ≤ e2.1 - (Tape.setQty N t e.1 e.2).2.1.anchor ∧
        e2.1 - (Tape.setQty N t e.1 e.2).2.1.anchor < (N : Int) := by
      intro e2 he2
      rw [h1anch]
      exact hin e2 (List.mem_cons_of_mem e he2)
    obtain ⟨ihlen, ihmem, ihnot⟩ :=
      ih (Tape.setQty N t e.1 e.2).2.1 h1len (List.Pairwise.of_cons hs) hin2
    refine ⟨?_, ?_, ?_⟩
    · simpa only [List.foldl_cons] using ihlen
    · intro j hj qv hqv
      simp only [List.foldl_cons]
      rcases List.mem_cons.1 hqv with h1 | h1
      · have he1 : e.1 = t.anchor + (j : Int) := by rw [← h1]
        have he2 : e.2 = qv := by rw [← h1]
        have hnp : ¬ hasPx vis ((Tape.setQty N t e.1 e.2).2.1.anchor + (j : Int)) := by
          rintro ⟨q2, hq2⟩
          have hlt := (List.pairwise_cons.1 hs).1 _ hq2
          rw [h1anch] at hlt
          omega
        rw [ihnot j hj hnp, h1cells j hj, if_pos (by omega)]
        exact he2
      · have := ihmem j hj qv (by rw [h1anch]; exact h1)
        exact this
    · intro j hj hnp
      simp only [List.foldl_cons]
      have hnp2 : ¬ hasPx vis ((Tape.setQty N t e.1 e.2).2.1.anchor + (j : Int)) := by
        rw [h1anch]
        exact fun ⟨q2, h⟩ => hnp ⟨q2, List.mem_cons_of_mem e h⟩
      rw [ihnot j hj hnp2, h1cells j hj, if_neg ?hcond]
      case hcond =>
        intro hc
        apply hnp
        refine ⟨e.2, ?_⟩
        have hpe : (t.anchor + (j : Int), e.2) = e := by
          have h1 : t.anchor + (j : Int) = e.1 := by omega
          exact Prod.ext h1 rfl
        rw [hpe]
        exact List.mem_cons_self e vis

/-- The promotion path of `set_impl` (re-center to `A`, push the
displaced levels to the spill, drain the new window back, retry), as a
map update: provided the incoming price lies in the new window, no spill
push raised the full flag, the spill was sorted and window-disjoint and
the tape well-formed with a valid anchor, the combined tape-plus-spill
map afterwards is the old map with `px ↦ q`. -/
theorem promote_path_lookup (N : Nat) (hN : 0 < N) (isBid : Bool) (t : Tape)
    (sp : SideD) (px : Int) (q : Nat) (A : Int)
    (hwf : TapeWF N t) (hav : anchorValid N t.anchor)
    (hs : SortedS sp.entries)
    (hdisj : ∀ e ∈ sp.entries, ¬ (0 ≤ e.1 - t.anchor ∧ e.1 - t.anchor < (N : Int)))
    (hAwin : A ≤ px ∧ px < A + (N : Int))
    (hfl2 : (applyPushes isBid sp (Tape.recenter N t A).2).2 = false) :
    ∀ p, sideLookup N (Tape.setQty N ((SideD.drainRange (applyPushes isBid sp (Tape.recenter N t A).2).1 (Tape.recenter N t A).1.anchor ((Tape.recenter N t A).1.anchor + (N : Int) - 1)).1.foldl (fun tt e => (Tape.setQty N tt e.1 e.2).2.1) (Tape.recenter N t A).1) px q).2.1 (SideD.drainRange (applyPushes isBid sp (Tape.recenter N t A).2).1 (Tape.recenter N t A).1.anchor ((Tape.recenter N t A).1.anchor + (N : Int) - 1)).2 p =
      if p = px then q else sideLookup N t sp p := by
  intro p
  set PS := (Tape.recenter N t A).2 with hPS
  set T2 := (Tape.recenter N t A).1 with hT2
  set SP2 := (applyPushes isBid sp PS).1 with hSP2
  set DR := SideD.drainRange SP2 T2.anchor (T2.anchor + (N : Int) - 1) with hDR
  set T3 := DR.1.foldl (fun tt e => (Tape.setQty N tt e.1 e.2).2.1) T2 with hT3
  have hrec := recenter_spec N hN t A hwf hav
  rw [← hPS, ← hT2] at hrec
  obtain ⟨hwf2, hcell2, hpsort, hpmem, hpcov⟩ := hrec
  have hanch2 : T2.anchor = A := by rw [hT2]; exact recenter_anchor N t A
  have hap := applyPushes_spec isBid PS sp hs hpsort hfl2
  rw [← hSP2] at hap
  obtain ⟨hs2, hlkA, hlkB, hpxs⟩ := hap
  have hdrs := drainRange_spec SP2 T2.anchor (T2.anchor + (N : Int) - 1) hs2
  rw [← hDR] at hdrs
  obtain ⟨hs3, hlk3, hvsort, hvmem, hvcov⟩ := hdrs
  have hinw : ∀ e ∈ DR.1, 0 ≤ e.1 - T2.anchor ∧ e.1 - T2.anchor < (N : Int) := by
    intro e he
    obtain ⟨h1, h2, _, _⟩ := hvmem e he
    constructor <;> omega
  have hfold := foldl_setQty_cells N DR.1 T2 hwf2.1 hvsort hinw
  rw [← hT3] at hfold
  obtain ⟨h3len, h3mem, h3not⟩ := hfold
  have h3anch : T3.anchor = T2.anchor := by
    rw [hT3]
    exact foldl_setQty_anchor N DR.1 T2
  have hinpx : 0 ≤ px - T3.anchor ∧ px - T3.anchor < (N : Int) := by
    rw [h3anch, hanch2]
    constructor <;> omega
  obtain ⟨_, _, hfanch, hfcell⟩ := setQty_inwindow_cells N T3 px q hinpx h3len
  have hfanch2 : (Tape.setQty N T3 px q).2.1.anchor = A := by
    rw [hfanch, h3anch, hanch2]
  simp only [sideLookup, inWindow, hfanch2]
  by_cases hpw : A ≤ p ∧ p < A + (N : Int)
  · have hjN : (p - A).toNat < N := by omega
    rw [if_pos hpw, hfcell (p - A).toNat hjN]
    by_cases hppx : p = px
    · rw [if_pos (show ((p - A).toNat : Int) = px - T3.anchor by
        rw [h3anch, hanch2]; omega), if_pos hppx]
    · rw [if_neg (show ¬ ((p - A).toNat : Int) = px - T3.anchor by
        rw [h3anch, hanch2]; omega), if_neg hppx]
      have hnpush : ¬ hasPx PS p := by
        rintro ⟨q2, hq2⟩
        obtain ⟨j2, hj2N, _, he2, hnw⟩ := hpmem (p, q2) hq2
        have hp1 : p = t.anchor + (j2 : Int) := congrArg Prod.fst he2
        rw [← hp1] at hnw
        exact hnw hpw
      by_cases hvp : hasPx DR.1 p
      · obtain ⟨qv, hqv⟩ := hvp
        have hmemb : (T2.anchor + ((p - A).toNat : Int), qv) ∈ DR.1 := by
          have heq : T2.anchor + ((p - A).toNat : Int) = p := by
            rw [hanch2]; omega
          rw [heq]
          exact hqv
        rw [h3mem (p - A).toNat hjN qv hmemb]
        obtain ⟨helo, hehi, henz, heval⟩ := hvmem (p, qv) hqv
        have hsp2 := hlkB p hnpush
        have hspv : spLookup sp.entries p = qv := by rw [← hsp2]; exact heval
        obtain ⟨q3, hq3m⟩ :=
          hasPx_of_spLookup_ne sp.entries p (by rw [hspv]; exact henz)
        have hold := hdisj (p, q3) hq3m
        rw [if_neg (fun hc => hold ⟨by omega, by omega⟩)]
        exact hspv.symm
      · have hvp2 : ¬ hasPx DR.1 (T2.anchor + ((p - A).toNat : Int)) := by
          have heq : T2.anchor + ((p - A).toNat : Int) = p := by
            rw [hanch2]; omega
          rw [heq]
          exact hvp
        rw [h3not (p - A).toNat hjN hvp2, hcell2 (p - A).toNat hjN]
        by_cases hold : 0 ≤ p - t.anchor ∧ p - t.anchor < (N : Int)
        · rw [if_pos (show 0 ≤ A + ((p - A).toNat : Int) - t.anchor ∧
              A + ((p - A).toNat : Int) - t.anchor < (N : Int) by
            constructor <;> omega),
            if_pos (show t.anchor ≤ p ∧ p < t.anchor + (N : Int) by
              constructor <;> omega)]
          congr 1
          omega
        · rw [if_neg (fun hc => hold ⟨by omega, by omega⟩),
            if_neg (fun hc => hold ⟨by omega, by omega⟩)]
          by_cases hz : spLookup sp.entries p = 0
          · rw [hz]
          · exfalso
            have hsp2 := hlkB p hnpush
            have hcv := hvcov p (by rw [hanch2]; omega) (by rw [hanch2]; omega)
              (by rw [hsp2]; exact hz)
            exact hvp ⟨_, hcv⟩
  · rw [if_neg hpw, hlk3 p, if_neg (fun hc => hpw ⟨by omega, by omega⟩)]
    have hppx : ¬ p = px := fun hc => hpw (by rw [hc]; exact ⟨hAwin.1, hAwin.2⟩)
    rw [if_neg hppx]
    by_cases hpush : hasPx PS p
    · rw [hlkA p hpush]
      obtain ⟨q2, hq2⟩ := hpush
      rw [spLookup_of_mem _ p q2 hpsort hq2]
      obtain ⟨j2, hj2N, hq2nz, he2, hnw⟩ := hpmem (p, q2) hq2
      have hp1 : p = t.anchor + (j2 : Int) := congrArg Prod.fst he2
      have hp2 : q2 = t.qtyAt j2 := congrArg Prod.snd he2
      have hj2c : (j2 : Int) < (N : Int) := by exact_mod_cast hj2N
      rw [if_pos (show t.anchor ≤ p ∧ p < t.anchor + (N : Int) by
        constructor <;> omega)]
      rw [hp2]
      congr 1
      omega
    · rw [hlkB p hpush]
      by_cases hold : 0 ≤ p - t.anchor ∧ p - t.anchor < (N : Int)
      · rw [if_pos (show t.anchor ≤ p ∧ p < t.anchor + (N : Int) by
          constructor <;> omega)]
        have hz : spLookup sp.entries p = 0 :=
          spLookup_eq_zero sp.entries p (fun hpx3 => by
            obtain ⟨q3, hq3m⟩ := hpx3
            exact hdisj (p, q3) hq3m ⟨hold.1, hold.2⟩)
        rw [hz]
        by_cases hqz : t.qtyAt (p - t.anchor).toNat = 0
        · rw [hqz]
        · exfalso
          have hnnw : ¬ (A ≤ t.anchor + ((p - t.anchor).toNat : Int) ∧
              t.anchor + ((p - t.anchor).toNat : Int) < A + (N : Int)) := by
            intro hc
            exact hpw ⟨by omega, by omega⟩
          have hcov := hpcov (p - t.anchor).toNat (by omega) hqz hnnw
          apply hpush
          refine ⟨t.qtyAt (p - t.anchor).toNat, ?_⟩
          have heq2 : (t.anchor + ((p - t.anchor).toNat : Int),
              t.qtyAt (p - t.anchor).toNat) = (p, t.qtyAt (p - t.anchor).toNat) :=
            Prod.ext (by omega) rfl
          rw [← heq2]
          exact hcov
      · rw [if_neg (fun hc => hold ⟨by omega, by omega⟩)]

/-- `set_impl` as a map update on one side: on every path (in-window
write, out-of-window spill, promotion with re-center and drain), when no
spill push raised the full flag, the side's combined price map afterwards
is the old map with `px ↦ q`, for any representable price and `q ≠ 0`. -/
theorem setImpl_lookup (N : Nat) (hN : 0 < N) (isBid : Bool) (t : Tape)
    (sp : SideD) (px : Int) (q : Nat)
    (hwf : TapeWF N t) (hav : anchorValid N t.anchor)
    (hs : SortedS sp.entries)
    (hdisj : ∀ e ∈ sp.entries, ¬ (0 ≤ e.1 - t.anchor ∧ e.1 - t.anchor < (N : Int)))
    (hq : q ≠ 0) (hpx : px ≤ maxPx)
    (hfl : (setImpl N isBid t sp px q).2.2.2 = false) :
    ∀ p, sideLookup N (setImpl N isBid t sp px q).2.1
        (setImpl N isBid t sp px q).2.2.1 p =
      if p = px then q else sideLookup N t sp p := by
  by_cases hp : (Tape.setQty N t px q).1 = UpdateResult.Promote
  · have hproj := setQty_promote_proj N t px q hp
    have h21 : (setImpl N isBid t sp px q).2.1 =
        (Tape.setQty N ((SideD.drainRange (applyPushes isBid sp (Tape.recenter N t (if px < (if computeAnchor N px ((N : Int) / 2) < computeAnchor N px ((N : Int) - 1) then computeAnchor N px ((N : Int) - 1) else computeAnchor N px ((N : Int) / 2)) then px else (if computeAnchor N px ((N : Int) / 2) < computeAnchor N px ((N : Int) - 1) then computeAnchor N px ((N : Int) - 1) else computeAnchor N px ((N : Int) / 2)))).2).1 (Tape.recenter N t (if px < (if computeAnchor N px ((N : Int) / 2) < computeAnchor N px ((N : Int) - 1) then computeAnchor N px ((N : Int) - 1) else computeAnchor N px ((N : Int) / 2)) then px else (if computeAnchor N px ((N : Int) / 2) < computeAnchor N px ((N : Int) - 1) then computeAnchor N px ((N : Int) - 1) else computeAnchor N px ((N : Int) / 2)))).1.anchor ((Tape.recenter N t (if px < (if computeAnchor N px ((N : Int) / 2) < computeAnchor N px ((N : Int) - 1) then computeAnchor N px ((N : Int) - 1) else computeAnchor N px ((N : Int) / 2)) then px else (if computeAnchor N px ((N : Int) / 2) < computeAnchor N px ((N : Int) - 1) then computeAnchor N px ((N : Int) - 1) else computeAnchor N px ((N : Int) / 2)))).1.anchor + (N : Int) - 1)).1.foldl (fun tt e => (Tape.setQty N tt e.1 e.2).2.1) (Tape.recenter N t (if px < (if computeAnchor N px ((N : Int) / 2) < computeAnchor N px ((N : Int) - 1) then computeAnchor N px ((N : Int) - 1) else computeAnchor N px ((N : Int) / 2)) then px else (if computeAnchor N px ((N : Int) / 2) < computeAnchor N px ((N : Int) - 1) then computeAnchor N px ((N : Int) - 1) else computeAnchor N px ((N : Int) / 2)))).1) px q).2.1 := by
      simp only [setImpl]
      rw [if_neg (not_not_intro hp)]
      simp only [hproj, applyPushes, List.foldl_nil]
    have h221 : (setImpl N isBid t sp px q).2.2.1 = (SideD.drainRange (applyPushes isBid sp (Tape.recenter N t (if px < (if computeAnchor N px ((N : Int) / 2) < computeAnchor N px ((N : Int) - 1) then computeAnchor N px ((N : Int) - 1) else computeAnchor N px ((N : Int) / 2)) then px else (if computeAnchor N px ((N : Int) / 2) < computeAnchor N px ((N : Int) - 1) then computeAnchor N px ((N : Int) - 1) else computeAnchor N px ((N : Int) / 2)))).2).1 (Tape.recenter N t (if px < (if computeAnchor N px ((N : Int) / 2) < computeAnchor N px ((N : Int) - 1) then computeAnchor N px ((N : Int) - 1) else computeAnchor N px ((N : Int) / 2)) then px else (if computeAnchor N px ((N : Int) / 2) < computeAnchor N px ((N : Int) - 1) then computeAnchor N px ((N : Int) - 1) else computeAnchor N px ((N : Int) / 2)))).1.anchor ((Tape.recenter N t (if px < (if computeAnchor N px ((N : Int) / 2) < computeAnchor N px ((N : Int) - 1) then computeAnchor N px ((N : Int) - 1) else computeAnchor N px ((N : Int) / 2)) then px else (if computeAnchor N px ((N : Int) / 2) < computeAnchor N px ((N : Int) - 1) then computeAnchor N px ((N : Int) - 1) else computeAnchor N px ((N : Int) / 2)))).1.anchor + (N : Int) - 1)).2 := by
      simp only [setImpl]
      rw [if_neg (not_not_intro hp)]
      simp only [hproj, applyPushes, List.foldl_nil]
    have h222 : (setImpl N isBid t sp px q).2.2.2 = (applyPushes isBid sp (Tape.recenter N t (if px < (if computeAnchor N px ((N : Int) / 2) < computeAnchor N px ((N : Int) - 1) then computeAnchor N px ((N : Int) - 1) else computeAnchor N px ((N : Int) / 2)) then px else (if computeAnchor N px ((N : Int) / 2) < computeAnchor N px ((N : Int) - 1) then computeAnchor N px ((N : Int) - 1) else computeAnchor N px ((N : Int) / 2)))).2).2 := by
      simp only [setImpl]
      rw [if_neg (not_not_intro hp)]
      simp only [hproj, applyPushes, List.foldl_nil, Bool.false_or]
    rw [h222] at hfl
    have hfl2 : (applyPushes isBid sp (Tape.recenter N t (if px < (if computeAnchor N px ((N : Int) / 2) < computeAnchor N px ((N : Int) - 1) then computeAnchor N px ((N : Int) - 1) else computeAnchor N px ((N : Int) / 2)) then px else (if computeAnchor N px ((N : Int) / 2) < computeAnchor N px ((N : Int) - 1) then computeAnchor N px ((N : Int) - 1) else computeAnchor N px ((N : Int) / 2)))).2).2 = false := hfl
    have hAwin := clampA_inwindow N hN px hpx
    intro p
    rw [h21, h221]
    exact promote_path_lookup N hN isBid t sp px q (if px < (if computeAnchor N px ((N : Int) / 2) < computeAnchor N px ((N : Int) - 1) then computeAnchor N px ((N : Int) - 1) else computeAnchor N px ((N : Int) / 2)) then px else (if computeAnchor N px ((N : Int) / 2) < computeAnchor N px ((N : Int) - 1) then computeAnchor N px ((N : Int) - 1) else computeAnchor N px ((N : Int) / 2)))
      hwf hav hs hdisj hAwin hfl2 p
  · by_cases hin : 0 ≤ px - t.anchor ∧ px - t.anchor < (N : Int)
    · obtain ⟨hpushes, hlen2, hanch, hcell⟩ := setQty_inwindow_cells N t px q hin hwf.1
      have hsi : setImpl N isBid t sp px q =
          ((Tape.setQty N t px q).1, (Tape.setQty N t px q).2.1, sp, false) := by
        simp only [setImpl]
        rw [if_pos hp, hpushes]
        simp only [applyPushes, List.foldl_nil]
      intro p
      rw [show (setImpl N isBid t sp px q).2.1 = (Tape.setQty N t px q).2.1 from
          by rw [hsi],
        show (setImpl N isBid t sp px q).2.2.1 = sp from by rw [hsi]]
      simp only [sideLookup, inWindow, hanch]
      by_cases hpw : t.anchor ≤ p ∧ p < t.anchor + (N : Int)
      · rw [if_pos hpw, if_pos hpw]
        have hjN : (p - t.anchor).toNat < N := by omega
        rw [hcell (p - t.anchor).toNat hjN]
        by_cases hppx : p = px
        · rw [if_pos (by omega : ((p - t.anchor).toNat : Int) = px - t.anchor),
            if_pos hppx]
        · rw [if_neg (by omega : ¬ ((p - t.anchor).toNat : Int) = px - t.anchor),
            if_neg hppx]
      · rw [if_neg hpw, if_neg hpw]
        have hppx : ¬ p = px := by
          intro hc
          subst hc
          exact hpw ⟨by omega, by omega⟩
        rw [if_neg hppx]
    · have hsp := setQty_outwindow_spill N t px q hin hq hp
      have hsi : setImpl N isBid t sp px q =
          ((Tape.setQty N t px q).1, t,
           (SideD.addPoint isBid sp px q).1, (SideD.addPoint isBid sp px q).2) := by
        simp only [setImpl]
        rw [if_pos hp, hsp]
        simp only [applyPushes, List.foldl_cons, List.foldl_nil, Bool.false_or]
      have hfl2 : (SideD.addPoint isBid sp px q).2 = false := by
        rw [hsi] at hfl
        exact hfl
      obtain ⟨hsort2, hlook, hhas⟩ := addPoint_noevict isBid sp px q hs hfl2
      intro p
      rw [show (setImpl N isBid t sp px q).2.1 = t from by rw [hsi],
        show (setImpl N isBid t sp px q).2.2.1 = (SideD.addPoint isBid sp px q).1 from
          by rw [hsi]]
      simp only [sideLookup, inWindow]
      by_cases hpw : t.anchor ≤ p ∧ p < t.anchor + (N : Int)
      · rw [if_pos hpw, if_pos hpw]
        have hppx : ¬ p = px := by
          intro hc
          subst hc
          exact hin ⟨by omega, by omega⟩
        rw [if_neg hppx]
      · rw [if_neg hpw, if_neg hpw, hlook p]

/-- The tape and spill side that `TapeBook::set<IsBid>` reads and
writes (`book.hpp`: `set` dispatches on the side template parameter). -/
def sideOf (isBid : Bool) (b : BookS) : Tape × SideD :=
  if isBid then (b.bids, b.spill.bid) else (b.asks, b.spill.ask)

/-- C4. After `set(side, p, q)` with `q > 0` on a book whose addressed
side satisfies the maintained representation invariants (well-formed
tape, valid anchor, sorted spill with prices outside the tape window)
and when the call raises no spill-full flag (enough spill capacity;
allocation is modelled as succeeding), the level `(p, q)` is present in
the tape or spill of that side — the side's combined price map holds
`q` at `p` — the quantity at every other price of that side is
unchanged, and the other side is untouched. -/
theorem c4_set_frame (N : Nat) (hN : 0 < N) (isBid : Bool) (b : BookS)
    (px : Int) (q : Nat)
    (hwf : TapeWF N (sideOf isBid b).1)
    (hav : anchorValid N (sideOf isBid b).1.anchor)
    (hs : SortedS (sideOf isBid b).2.entries)
    (hdisj : ∀ e ∈ (sideOf isBid b).2.entries,
      ¬ (0 ≤ e.1 - (sideOf isBid b).1.anchor ∧
         e.1 - (sideOf isBid b).1.anchor < (N : Int)))
    (hq : q ≠ 0) (hpx : px ≤ maxPx)
    (hfl : (bookSet N isBid b px q).2.2 = false) :
    (∀ p, sideLookup N (sideOf isBid (bookSet N isBid b px q).2.1).1
        (sideOf isBid (bookSet N isBid b px q).2.1).2 p =
      if p = px then q
      else sideLookup N (sideOf isBid b).1 (sideOf isBid b).2 p) ∧
    sideOf (!isBid) (bookSet N isBid b px q).2.1 = sideOf (!isBid) b := by
  cases isBid
  · simp only [sideOf, Bool.false_eq_true, if_false] at hwf hav hs hdisj
    simp only [bookSet, sideOf, Bool.false_eq_true, Bool.not_false, if_false,
      eq_self_iff_true, if_true] at hfl ⊢
    exact ⟨setImpl_lookup N hN false b.asks b.spill.ask px q hwf hav hs hdisj
      hq hpx hfl, trivial⟩
  · simp only [sideOf, eq_self_iff_true, if_true] at hwf hav hs hdisj
    simp only [bookSet, sideOf, Bool.not_true, Bool.false_eq_true, if_false,
      eq_self_iff_true, if_true] at hfl ⊢
    exact ⟨setImpl_lookup N hN true b.bids b.spill.bid px q hwf hav hs hdisj
      hq hpx hfl, trivial⟩

/-- Concrete book for the C4 witness: fresh `N = 4` book anchored at
1000, bid side, incoming level `(1001, 5)`. -/
def c4book : BookS := mkBook 4 8 1000

/-- C4 witness: on the concrete book the hypotheses hold, the set level
is found at its price, and the ask side is untouched. -/
theorem c4_witness :
    ((0 : Nat) < 4 ∧ TapeWF 4 (sideOf true c4book).1 ∧
     anchorValid 4 (sideOf true c4book).1.anchor ∧
     SortedS (sideOf true c4book).2.entries ∧
     (bookSet 4 true c4book 1001 5).2.2 = false) ∧
    sideLookup 4 (sideOf true (bookSet 4 true c4book 1001 5).2.1).1
      (sideOf true (bookSet 4 true c4book 1001 5).2.1).2 1001 = 5 ∧
    sideOf (!true) (bookSet 4 true c4book 1001 5).2.1 = sideOf (!true) c4book := by
  have h := c4_set_frame 4 (by decide) true c4book 1001 5 (by decide) (by decide)
    (by decide) (by decide) (by decide) (by decide) (by decide)
  refine ⟨⟨by decide, by decide, by decide, by decide, by decide⟩, ?_, h.2⟩
  have h1 := h.1 1001
  rw [if_pos rfl] at h1
  exact h1

end TapeBook
